import Mathlib

/-!
The in-memory table of pubsubsql (`server/table.go`).

A shallow embedding of `table.go` and a verification of its key-definition,
insert and rollback behaviour.

Modelling conventions

* A Go `map[string]V` is a function `String → Option V` (`none` = key absent).
  The code only looks up, assigns and deletes single entries, so nothing
  depends on iteration order or size.
* A `*column` is an address (`Nat`) into the table's column heap; a possibly-nil
  `*column` is an `Option Nat`. Column objects are shared between `colMap` and
  `colSlice` through their address, as in Go.
* A nil `map[string]int` in `column.key` is `none`.
* A function that can hit a run-time panic (nil dereference) returns `Option`;
  `none` is the panic, `some` is an ordinary return.
* Lengths, ordinals and record ids are `Nat` (they are lengths of slices).
-/

namespace pubsubsql

/-! ## Go maps and slices -/

/-- Go `map[string]V`, by its lookup function. -/
abbrev GoMap (V : Type) := String → Option V

/-- The result of `make(map[string]V)`: a non-nil map without entries. -/
def GoMap.empty {V : Type} : GoMap V := fun _ => none

/-- The assignment `m[k] = v`. -/
def GoMap.set {V : Type} (m : GoMap V) (k : String) (v : V) : GoMap V :=
  fun x => if x = k then some v else m x

/-- The builtin `delete(m, k)`. -/
def GoMap.delete {V : Type} (m : GoMap V) (k : String) : GoMap V :=
  fun x => if x = k then none else m x

/-- Go slice with its elements and the capacity of its backing array. -/
structure Slice (α : Type) where
  elems : List α
  cap : Nat

/-- Capacity chosen by the Go runtime when `append` has to reallocate. The exact
amount is an implementation detail of the runtime; it is never below the needed
length. -/
def runtimeGrow (oldCap : Nat) : Nat := 2 * oldCap + 1

/-- The builtin `append(s, x)`: in place when there is room, otherwise into a
larger backing array. -/
def Slice.append {α : Type} (s : Slice α) (x : α) : Slice α :=
  if s.elems.length < s.cap then ⟨s.elems ++ [x], s.cap⟩
  else ⟨s.elems ++ [x], runtimeGrow s.cap⟩

/-- Go `strconv.Itoa` on a non-negative int. -/
def strconvItoa (n : Nat) : String := Nat.repr n

/-! ## Records -/

/-- Modelled from the spec: the `record` type and its methods live in a file
that is not part of the sources. A record is an ordered collection of column
values, one slot per column ordinal; its identifier is stored as its own value
in column 0. -/
structure record where
  values : List String
  deriving DecidableEq, Repr

/-- Modelled from the spec: `record.getValue`, missing from the sources. A slot
holds the value last written for that column, and any slot beyond the record's
length reads as the empty default. -/
def record.getValue (r : record) (ordinal : Nat) : String :=
  r.values.getD ordinal ""

/-- Modelled from the spec: `record.setValue`, missing from the sources. Writes
the slot of the given ordinal, growing the record with empty defaults when the
ordinal lies beyond its current length. -/
def record.setValue (r : record) (ordinal : Nat) (val : String) : record :=
  ⟨(r.values ++ List.replicate (ordinal + 1 - r.values.length) "").set ordinal val⟩

/-- Modelled from the spec: the `newRecord(columns, id)` factory, missing from
the sources. The record is sized to the column count and its identifier is
stored in column 0. -/
def newRecord (columns : Nat) (id : String) : record :=
  (record.mk (List.replicate columns "")).setValue 0 id

/-- Modelled from the spec: `record.getId`, missing from the sources. The
identifier is the record's own value in column 0. -/
def record.getId (r : record) : String := r.getValue 0

/-! ## Columns and tables -/

/-- The `column` struct. -/
structure column where
  name : String
  ordinal : Nat
  key : Option (GoMap Nat)

/-- Method `column.hasKey`. -/
def column.hasKey (c : column) : Bool := c.key.isSome

/-- Method `column.keyContainsValue`; reading a nil map yields "absent". -/
def column.keyContainsValue (c : column) (k : String) : Bool :=
  match c.key with
  | none => false
  | some m => (m k).isSome

/-- The `table` struct. `heap` and `next` are the column objects allocated so
far (addresses below `next` are in use); `colMap` and `colSlice` hold addresses. -/
structure table where
  name : String
  heap : Nat → column
  next : Nat
  colMap : GoMap Nat
  colSlice : List Nat
  records : Slice record

/-- Pair of an insert request. -/
structure columnValue where
  col : String
  val : String
  deriving DecidableEq, Repr

/-- Request of `sqlKey`. -/
structure sqlKeyRequest where
  column : String
  deriving DecidableEq, Repr

/-- Request of `sqlInsert`. -/
structure sqlInsertRequest where
  colVals : List columnValue
  deriving DecidableEq, Repr

/-- Request of `sqlSelect`; an empty `filter.col` means no filter. -/
structure sqlSelectRequest where
  filter : columnValue
  deriving DecidableEq, Repr

/-- The responses `table.go` builds. A select response shares the table's column
addresses and carries value copies of the records. -/
inductive response where
  | okResponse
  | errorResponse (err : String)
  | sqlInsertResponse (id : String)
  | sqlSelectResponse (columns : List Nat) (records : List record)
  deriving DecidableEq, Repr

/-- Constructor `newErrorResponse`. -/
def newErrorResponse (err : String) : response := response.errorResponse err

/-- Constructor `newOkResponse`. -/
def newOkResponse : response := response.okResponse

/-- Whether a response is an error response. -/
def response.isError : response → Bool
  | response.errorResponse _ => true
  | _ => false

/-- Constant `tableCOLUMNS`. -/
def tableCOLUMNS : Nat := 10

/-- Constant `tableRECORDS`. -/
def tableRECORDS : Nat := 5000

/-- Method `table.addColumn`: allocates the column object, registers it under
its name and appends it to the column sequence. -/
def table.addColumn (t : table) (name : String) : table × Nat :=
  let ordinal := t.colSlice.length
  let col : column := ⟨name, ordinal, none⟩
  let p := t.next
  (⟨t.name, Function.update t.heap p col, p + 1, t.colMap.set name p,
    t.colSlice ++ [p], t.records⟩, p)

/-- Factory `newTable`. -/
def newTable (name : String) : table :=
  let t : table :=
    ⟨name, fun _ => ⟨"", 0, none⟩, 0, GoMap.empty, [], ⟨[], tableRECORDS⟩⟩
  (t.addColumn "id").1

/-- Method `table.getAddColumn`; the flag is true when the column was added. -/
def table.getAddColumn (t : table) (name : String) : table × Nat × Bool :=
  match t.colMap name with
  | some col => (t, col, false)
  | none => let r := t.addColumn name; (r.1, r.2, true)

/-- Method `table.getColumn`; `none` is the nil pointer. -/
def table.getColumn (t : table) (name : String) : Option Nat :=
  match t.colMap name with
  | some col => some col
  | none => none

/-- Method `table.getColumnCount`. -/
def table.getColumnCount (t : table) : Nat := t.colSlice.length

/-- Method `table.newRecord`: a provisional record and its would-be id. -/
def table.newRecord (t : table) : record × Nat :=
  let l := t.records.elems.length
  (pubsubsql.newRecord t.colSlice.length (strconvItoa l), l)

/-- Function `addRecordToSlice`. -/
def addRecordToSlice (records : Slice record) (r : record) : Slice record :=
  let l := records.elems.length
  let records1 : Slice record :=
    if records.cap = records.elems.length then ⟨records.elems, l + l / 10⟩ else records
  records1.append r

/-- Method `table.addNewRecord`. -/
def table.addNewRecord (t : table) (r : record) : table :=
  ⟨t.name, t.heap, t.next, t.colMap, t.colSlice, addRecordToSlice t.records r⟩

/-- Method `table.getRecord`; `none` is the nil result. An index below zero
makes Go panic on `t.records[id]`, which is the outer `none`. -/
def table.getRecord (t : table) (id : Int) : Option (Option record) :=
  if (t.records.elems.length : Int) > id then
    (if id < 0 then none else some (t.records.elems[id.toNat]?))
  else some none

/-- Method `table.getRecordCount`. -/
def table.getRecordCount (t : table) : Nat := t.records.elems.length

/-- The assignment `col.key = key` through a column address. -/
def table.setKey (t : table) (p : Nat) (key : Option (GoMap Nat)) : table :=
  ⟨t.name, Function.update t.heap p ⟨(t.heap p).name, (t.heap p).ordinal, key⟩,
    t.next, t.colMap, t.colSlice, t.records⟩

/-- The scan loop of `sqlKey` over the records from position `idx` on. `col` is
the column being keyed as it is during the loop, `key` the mapping built so
far. The result is `none` when the loop leaves through its duplicate branch. -/
def sqlKeyScan (col : column) : List record → Nat → GoMap Nat → Option (GoMap Nat)
  | [], _, key => some key
  | rec :: rest, idx, key =>
    let val := rec.getValue col.ordinal
    if col.keyContainsValue val then none
    else sqlKeyScan col rest (idx + 1) (key.set val idx)

/-- Method `table.sqlKey`. -/
def table.sqlKey (t : table) (req : sqlKeyRequest) : Option (response × table) :=
  let col := t.getColumn req.column
  match col with
  | some p =>
    if (t.heap p).hasKey then
      some (newErrorResponse "key already exists", t)
    else
      -- index all records and check if there are duplicates
      match sqlKeyScan (t.heap p) t.records.elems 0 GoMap.empty with
      | none =>
        some (newErrorResponse
          "can not define key due to possible duplicates in existing records", t)
      | some key => some (newOkResponse, t.setKey p (some key))
  | none =>
    if t.records.elems.length > 0 then
      some (newErrorResponse
        "can not define key for non existant column due to possible duplicates", t)
    else
      -- new column no records
      let key : GoMap Nat := GoMap.empty
      let t1 := (t.getAddColumn req.column).1
      -- the inner `col := t.getColumn(req.column)` shadows the outer `col`
      match t1.getColumn req.column with
      | none => none
      | some q =>
        let t2 := t1.setKey q (some key)
        -- after the block, `col.key = key` goes through the outer `col`
        match col with
        | none => none
        | some p => some (newOkResponse, t2.setKey p (some key))

/-- The key-removal loop of `rollback`. -/
def rollbackKeys (id : Nat) : List columnValue → table → Option table
  | [], t => some t
  | colVal :: rest, t =>
    match t.getColumn colVal.col with
    | none => none
    | some p =>
      match (t.heap p).key with
      | none => rollbackKeys id rest t
      | some key =>
        if key colVal.val = some id then
          rollbackKeys id rest (t.setKey p (some (key.delete colVal.val)))
        else rollbackKeys id rest t

/-- Method `table.rollback`. -/
def table.rollback (t : table) (id : Nat) (colLen : Nat) (colVals : List columnValue)
    (newColumns : List String) : Option table :=
  let t1 : table := ⟨t.name, t.heap, t.next, t.colMap, t.colSlice.take colLen, t.records⟩
  -- back off column changes
  let t2 : table := newColumns.foldl
    (fun s newColumn => ⟨s.name, s.heap, s.next, s.colMap.delete newColumn, s.colSlice, s.records⟩)
    t1
  -- remove inserted keys
  rollbackKeys id colVals t2

/-- The loop of `sqlInsert` over the pairs still to process, followed by the
commit of the record. `all` is `req.colVals`. -/
def sqlInsertLoop (id : Nat) (originalColumnsLen : Nat) (all : List columnValue) :
    List columnValue → table → record → List String → Option (response × table)
  | [], t, rec, _ =>
    let t1 := t.addNewRecord rec
    some (response.sqlInsertResponse rec.getId, t1)
  | colVal :: rest, t, rec, newColumns =>
    let r := t.getAddColumn colVal.col
    let t1 := r.1
    let col := r.2.1
    let isNewColumn := r.2.2
    if !isNewColumn && ((t1.heap col).hasKey && (t1.heap col).keyContainsValue colVal.val) then
      match t1.rollback id originalColumnsLen all newColumns with
      | none => none
      | some t2 =>
        some (newErrorResponse
          ("insert failed due to duplicate column key:" ++ colVal.col ++ " value:" ++ colVal.val), t2)
    else
      let newColumns1 := if isNewColumn then newColumns ++ [colVal.col] else newColumns
      -- update key
      let t2 :=
        match (t1.heap col).key with
        | some key => t1.setKey col (some (key.set colVal.val id))
        | none => t1
      sqlInsertLoop id originalColumnsLen all rest t2
        (rec.setValue (t2.heap col).ordinal colVal.val) newColumns1

/-- Method `table.sqlInsert`. -/
def table.sqlInsert (t : table) (req : sqlInsertRequest) : Option (response × table) :=
  let r := t.newRecord
  sqlInsertLoop r.2 t.colSlice.length req.colVals req.colVals t r.1 []

/-- Modelled from the spec: `sqlSelectResponse.copyRecordData`, missing from the
sources, appends a value-level copy of the record's data to the response. -/
def copyRecordData (records : List record) (source : record) : List record :=
  records ++ [⟨source.values⟩]

/-- Method `table.sqlSelect`. -/
def table.sqlSelect (t : table) (req : sqlSelectRequest) : Option (response × table) :=
  if req.filter.col ≠ "" then
    some (newErrorResponse "filters are not supported ", t)
  else
    some (response.sqlSelectResponse t.colSlice (t.records.elems.foldl copyRecordData []), t)

/-! ## Sequences of calls -/

/-- One call on a table. -/
inductive Op where
  | key (req : sqlKeyRequest)
  | insert (req : sqlInsertRequest)
  | select (req : sqlSelectRequest)
  deriving DecidableEq, Repr

/-- Performs one call. -/
def step (t : table) : Op → Option (response × table)
  | Op.key req => t.sqlKey req
  | Op.insert req => t.sqlInsert req
  | Op.select req => t.sqlSelect req

/-- Performs the calls in order; `none` as soon as a call does not return. -/
def runOps : List Op → table → Option table
  | [], t => some t
  | op :: ops, t =>
    match step t op with
    | none => none
    | some r => runOps ops r.2

/-! ## Predicates used in the statements -/

/-- Every entry of every key index targets a committed record position. -/
def KeysBounded (t : table) : Prop :=
  ∀ p m k i, (t.heap p).key = some m → m k = some i → i < t.records.elems.length

/-- State of a running insert that has created no column so far, relative to the
table `T` the insert started from: only key entries targeting `id` were added,
each for a pair of `pending`. -/
def Touched (T : table) (id : Nat) (pending : List columnValue) (t : table) : Prop :=
  t.name = T.name ∧ t.next = T.next ∧ t.colMap = T.colMap ∧ t.colSlice = T.colSlice ∧
  t.records = T.records ∧
  ∀ p, (t.heap p).name = (T.heap p).name ∧ (t.heap p).ordinal = (T.heap p).ordinal ∧
    ((T.heap p).key = none → (t.heap p).key = none) ∧
    ∀ M, (T.heap p).key = some M → ∃ m, (t.heap p).key = some m ∧
      ∀ k, m k = M k ∨ (M k = none ∧ m k = some id ∧
        ∃ cv ∈ pending, T.colMap cv.col = some p ∧ cv.val = k)

/-- Column registry consistency: the name lookup and the column sequence hold the
same column objects, each at the position given by its ordinal, and only
registered columns carry a key index. -/
def Registry (t : table) : Prop :=
  (∀ n p, t.colMap n = some p →
    (t.heap p).name = n ∧ p < t.next ∧ t.colSlice[(t.heap p).ordinal]? = some p) ∧
  (∀ i p, t.colSlice[i]? = some p →
    (t.heap p).ordinal = i ∧ t.colMap (t.heap p).name = some p) ∧
  (∀ p m, (t.heap p).key = some m → t.colMap (t.heap p).name = some p)

/-- Every entry of every key index targets a position up to `b`. -/
def KeysLe (t : table) (b : Nat) : Prop :=
  ∀ p m k i, (t.heap p).key = some m → m k = some i → i ≤ b

/-! ## Concrete tables used as witnesses -/

/-- One insert of `symbol`, `price` followed by a key definition on `symbol`. -/
def stocksOps : List Op :=
  [Op.insert ⟨[⟨"symbol", "ABC"⟩, ⟨"price", "10"⟩]⟩, Op.key ⟨"symbol"⟩]

/-- The table after `stocksOps`: columns id, symbol, price; one record; a key
index on `symbol` holding ABC -> 0. -/
def stocksTable : table := (runOps stocksOps (newTable "stocks")).getD (newTable "stocks")

/-- An insert whose `symbol` value is already in the key index. -/
def duplicateReq : sqlInsertRequest := ⟨[⟨"symbol", "ABC"⟩, ⟨"price", "11"⟩]⟩

/-- The table `sqlInsert` hands back for `duplicateReq` on `stocksTable`. -/
def stocksAfterDuplicate : table :=
  ((stocksTable.sqlInsert duplicateReq).map Prod.snd).getD (newTable "stocks")

/-- An insert that first names a new column and then repeats a keyed value. -/
def newColumnDuplicateReq : sqlInsertRequest := ⟨[⟨"volume", "100"⟩, ⟨"symbol", "ABC"⟩]⟩

/-- Two inserts that store the same value in column `symbol`. -/
def repeatedOps : List Op :=
  [Op.insert ⟨[⟨"symbol", "ABC"⟩]⟩, Op.insert ⟨[⟨"symbol", "ABC"⟩]⟩]

/-- The table after `repeatedOps`: two records, both holding ABC in `symbol`. -/
def repeatedTable : table := (runOps repeatedOps (newTable "stocks")).getD (newTable "stocks")

/-- Two inserts that store different values in column `symbol`. -/
def distinctOps : List Op :=
  [Op.insert ⟨[⟨"symbol", "ABC"⟩]⟩, Op.insert ⟨[⟨"symbol", "XYZ"⟩]⟩]

/-- The table after `distinctOps`. -/
def distinctTable : table := (runOps distinctOps (newTable "stocks")).getD (newTable "stocks")

/-- Only the column named "id" has ordinal 0, and the column sequence is not empty. -/
def IdColumnFirst (t : table) : Prop :=
  0 < t.colSlice.length ∧ ∀ n p, t.colMap n = some p → (t.heap p).ordinal = 0 → n = "id"

/-- Each stored record holds the decimal string of its position in its id slot. -/
def IdRows (t : table) : Prop :=
  ∀ n r, t.records.elems[n]? = some r → r.getValue 0 = strconvItoa n

/-- No insert among the calls has a pair naming the column "id". -/
def NoIdPair (ops : List Op) : Prop :=
  ∀ req, Op.insert req ∈ ops → ∀ cv ∈ req.colVals, cv.col ≠ "id"

/-- One insert with a pair naming the column "id". -/
def idOps : List Op := [Op.insert ⟨[⟨"id", "7"⟩]⟩]

/-- The table after `idOps`. -/
def idTable : table := (runOps idOps (newTable "stocks")).getD (newTable "stocks")

/-- Key index soundness: every entry (v -> i) of every column's key index points
at a stored record that holds v at the column's ordinal. -/
def KeySound (t : table) : Prop :=
  ∀ p m v i, (t.heap p).key = some m → m v = some i →
    ∃ r, t.records.elems[i]? = some r ∧ r.getValue (t.heap p).ordinal = v

/-- Soundness while an insert started on `T` is running: an entry either points
at a stored record, or it was written for the provisional record `rec`, which
holds that value in a slot no pending pair will write again. -/
def SoundDuring (T : table) (rest : List columnValue) (s : table) (rec : record) : Prop :=
  ∀ p m v i, (s.heap p).key = some m → m v = some i →
    (∃ r, T.records.elems[i]? = some r ∧ r.getValue (s.heap p).ordinal = v) ∨
    (i = T.records.elems.length ∧ rec.getValue (s.heap p).ordinal = v ∧
      ∀ cv ∈ rest, cv.col ≠ (s.heap p).name)

/-- Every insert among the calls names each column at most once. -/
def DistinctColumns (ops : List Op) : Prop :=
  ∀ req, Op.insert req ∈ ops → (req.colVals.map columnValue.col).Nodup

/-- A keyed column `symbol`, then an insert that names `symbol` twice. -/
def overwriteOps : List Op :=
  [Op.insert ⟨[⟨"symbol", "ABC"⟩]⟩, Op.key ⟨"symbol"⟩,
   Op.insert ⟨[⟨"symbol", "X"⟩, ⟨"symbol", "Y"⟩]⟩]

/-- The table after `overwriteOps`. -/
def overwriteTable : table := (runOps overwriteOps (newTable "stocks")).getD (newTable "stocks")

/-- Key uniqueness: no two distinct stored records hold the same value at the
ordinal of a column that has a key index. -/
def KeyUnique (t : table) : Prop :=
  ∀ p, (t.heap p).hasKey = true → ∀ (i j : Nat) (ri rj : record), i ≠ j →
    t.records.elems[i]? = some ri → t.records.elems[j]? = some rj →
    ri.getValue (t.heap p).ordinal ≠ rj.getValue (t.heap p).ordinal

/-- Key index completeness: every key index maps the value of every stored record
at the column's ordinal to that record's position. -/
def KeyComplete (t : table) : Prop :=
  ∀ p m, (t.heap p).key = some m → ∀ i r, t.records.elems[i]? = some r →
    m (r.getValue (t.heap p).ordinal) = some i

/-- Completeness while an insert started on `T` is running: each key index still
covers the stored records, and it either already holds the provisional record's
value or a pending pair names its column. -/
def CompleteDuring (T : table) (rest : List columnValue) (s : table) (rec : record) : Prop :=
  ∀ p m, (s.heap p).key = some m →
    (∀ i r, T.records.elems[i]? = some r → m (r.getValue (s.heap p).ordinal) = some i) ∧
    (m (rec.getValue (s.heap p).ordinal) = some T.records.elems.length ∨
      ∃ cv ∈ rest, cv.col = (s.heap p).name)

/-- Whether a call keeps the key indexes complete: a key definition on an existing
unkeyed column is made while that column's stored values are pairwise distinct,
and an insert names every column of the table that has a key index. -/
def suppliesKeys (t : table) : Op → Bool
  | Op.key req =>
    match t.getColumn req.column with
    | some p =>
      (t.heap p).hasKey ||
        decide (t.records.elems.map (fun r => r.getValue (t.heap p).ordinal)).Nodup
    | none => true
  | Op.insert req =>
    t.colSlice.all (fun p =>
      !(t.heap p).hasKey || req.colVals.any (fun cv => cv.col == (t.heap p).name))
  | Op.select _ => true

/-- Whether every call of the sequence satisfies `suppliesKeys` on the table it is
made on. -/
def suppliesKeysRun : List Op → table → Bool
  | [], _ => true
  | op :: ops, t =>
    suppliesKeys t op &&
      match step t op with
      | none => true
      | some r => suppliesKeysRun ops r.2

/-- A keyed column `symbol`, then two inserts that do not name it. -/
def unsuppliedOps : List Op :=
  [Op.insert ⟨[⟨"symbol", "ABC"⟩]⟩, Op.key ⟨"symbol"⟩,
   Op.insert ⟨[⟨"price", "1"⟩]⟩, Op.insert ⟨[⟨"price", "2"⟩]⟩]

/-- The table after `unsuppliedOps`. -/
def unsuppliedTable : table :=
  (runOps unsuppliedOps (newTable "stocks")).getD (newTable "stocks")

/-- A keyed column `symbol`, then an insert that names it with a fresh value. -/
def suppliedOps : List Op :=
  [Op.insert ⟨[⟨"symbol", "ABC"⟩]⟩, Op.key ⟨"symbol"⟩,
   Op.insert ⟨[⟨"symbol", "XYZ"⟩, ⟨"price", "5"⟩]⟩]

/-- The table after `suppliedOps`. -/
def suppliedTable : table :=
  (runOps suppliedOps (newTable "stocks")).getD (newTable "stocks")

/-! ## Column additions, call sequences with `getAddColumn`, and counts -/

/-- The de-duplicated sequence of a list of names: each name once, at the place
of its first occurrence. This is the specification-side notion of "distinct
names in order of first occurrence"; it does not come from the code. -/
def firstOccurrences : List String → List String
  | [] => []
  | n :: l => n :: (firstOccurrences l).filter (fun x => decide (x ≠ n))

/-- Applies `getAddColumn` to the names in order, keeping the table. -/
def addColumns (names : List String) (t : table) : table :=
  names.foldl (fun s n => (s.getAddColumn n).1) t

/-- The names of the list that the table's name lookup does not know, each once,
in order of first occurrence. Specification-side notion, like `firstOccurrences`. -/
def unseenNames (t : table) (names : List String) : List String :=
  (firstOccurrences names).filter (fun n => (t.getColumn n).isNone)

/-- Two tables with the same column registry: same column sequence, same name
lookup, same allocation counter, and column objects that agree on name, ordinal
and on whether a key index is attached. -/
def SameColumns (a b : table) : Prop :=
  a.colSlice = b.colSlice ∧ a.colMap = b.colMap ∧ a.next = b.next ∧
  ∀ p, (a.heap p).name = (b.heap p).name ∧ (a.heap p).ordinal = (b.heap p).ordinal ∧
    (a.heap p).hasKey = (b.heap p).hasKey

/-- Counts a response as 1 when it is an insert success response, else as 0. -/
def insertSuccess : response → Nat
  | response.sqlInsertResponse _ => 1
  | _ => 0

/-- Number of calls of the sequence that return an insert success response. -/
def successfulInserts : List Op → table → Nat
  | [], _ => 0
  | op :: ops, t =>
    match step t op with
    | none => 0
    | some r => insertSuccess r.1 + successfulInserts ops r.2

/-- One call on a table, `getAddColumn` included. -/
inductive Call where
  | op (o : Op)
  | getAddColumn (name : String)
  deriving DecidableEq, Repr

/-- Performs one call of either kind and keeps the table. -/
def stepCall (t : table) : Call → Option table
  | Call.op o => (step t o).map Prod.snd
  | Call.getAddColumn name => some (t.getAddColumn name).1

/-- Performs the calls in order; `none` as soon as a call does not return. -/
def runCalls : List Call → table → Option table
  | [], t => some t
  | c :: cs, t =>
    match stepCall t c with
    | none => none
    | some t1 => runCalls cs t1

/-- Column registry consistency in the words of the data model: the column at
position i has ordinal i, the names in the sequence are pairwise distinct, and
the name lookup holds exactly the columns of the sequence, each under its name. -/
def RegistryConsistent (t : table) : Prop :=
  (∀ i p, t.colSlice[i]? = some p → (t.heap p).ordinal = i) ∧
  (t.colSlice.map (fun p => (t.heap p).name)).Nodup ∧
  (∀ n p, t.colMap n = some p ↔ (p ∈ t.colSlice ∧ (t.heap p).name = n))

/-- An insert of a fresh `symbol` value that also names the new column `volume`. -/
def volumeReq : sqlInsertRequest :=
  ⟨[⟨"symbol", "XYZ"⟩, ⟨"price", "5"⟩, ⟨"volume", "100"⟩]⟩

/-- The table `sqlInsert` hands back for `volumeReq` on `stocksTable`. -/
def stocksAfterVolume : table :=
  ((stocksTable.sqlInsert volumeReq).map Prod.snd).getD (newTable "stocks")

/-- A failed insert between two successful ones, after a key definition. -/
def interleavedOps : List Op :=
  [Op.insert ⟨[⟨"symbol", "ABC"⟩]⟩, Op.key ⟨"symbol"⟩, Op.insert ⟨[⟨"symbol", "ABC"⟩]⟩]

/-- The table after `interleavedOps`: one record, the second insert failed. -/
def interleavedTable : table :=
  (runOps interleavedOps (newTable "stocks")).getD (newTable "stocks")

/-- The table `sqlInsert` hands back for a fresh `symbol` on `interleavedTable`. -/
def interleavedAfter : table :=
  ((interleavedTable.sqlInsert ⟨[⟨"symbol", "XYZ"⟩]⟩).map Prod.snd).getD (newTable "stocks")

/-- Calls of every kind, one `getAddColumn` included. -/
def mixedCalls : List Call :=
  [Call.getAddColumn "symbol", Call.op (Op.insert ⟨[⟨"symbol", "ABC"⟩, ⟨"price", "10"⟩]⟩),
   Call.op (Op.key ⟨"symbol"⟩), Call.op (Op.insert ⟨[⟨"symbol", "ABC"⟩]⟩),
   Call.op (Op.select ⟨⟨"", ""⟩⟩)]

/-- The table after `mixedCalls`. -/
def mixedTable : table := (runCalls mixedCalls (newTable "stocks")).getD (newTable "stocks")

/-! ## Maps, heap cells and records -/

theorem GoMap.set_apply {V : Type} (m : GoMap V) (k : String) (v : V) (x : String) :
    m.set k v x = if x = k then some v else m x := rfl

theorem GoMap.delete_apply {V : Type} (m : GoMap V) (k : String) (x : String) :
    m.delete k x = if x = k then none else m x := rfl

theorem setKey_heap_same (t : table) (p : Nat) (key : Option (GoMap Nat)) :
    (t.setKey p key).heap p = ⟨(t.heap p).name, (t.heap p).ordinal, key⟩ := by
  simp [table.setKey]

theorem setKey_heap_ne (t : table) {p q : Nat} (key : Option (GoMap Nat)) (h : q ≠ p) :
    (t.setKey p key).heap q = t.heap q := by
  simp [table.setKey, Function.update, h]

theorem column_ext {a b : column} (h1 : a.name = b.name) (h2 : a.ordinal = b.ordinal)
    (h3 : a.key = b.key) : a = b := by
  cases a; cases b; simp_all

theorem table_ext {a b : table} (h1 : a.name = b.name) (h2 : a.heap = b.heap)
    (h3 : a.next = b.next) (h4 : a.colMap = b.colMap) (h5 : a.colSlice = b.colSlice)
    (h6 : a.records = b.records) : a = b := by
  cases a; cases b; simp_all

/-! ## Rollback -/

theorem touched_nil {T t : table} {id : Nat} (h : Touched T id [] t) : t = T := by
  obtain ⟨h1, h2, h3, h4, h5, h6⟩ := h
  refine table_ext h1 ?_ h2 h3 h4 h5
  funext p
  obtain ⟨hn, ho, hk0, hk1⟩ := h6 p
  refine column_ext hn ho ?_
  cases hT : (T.heap p).key with
  | none => exact hk0 hT
  | some M =>
    obtain ⟨m, hm, hall⟩ := hk1 M hT
    rw [hm]
    congr 1
    funext k
    rcases hall k with h | ⟨_, _, cv, hcv, _⟩
    · exact h
    · simp at hcv

/-- Dropping the first pending pair when the table holds no entry written for it. -/
theorem touched_skip {T t : table} {id : Nat} {cv : columnValue} {rest : List columnValue}
    {p : Nat} (h : Touched T id (cv :: rest) t) (hp : t.colMap cv.col = some p)
    (hno : ∀ m, (t.heap p).key = some m → m cv.val ≠ some id) : Touched T id rest t := by
  obtain ⟨h1, h2, h3, h4, h5, h6⟩ := h
  refine ⟨h1, h2, h3, h4, h5, fun q => ?_⟩
  obtain ⟨hn, ho, hk0, hk1⟩ := h6 q
  refine ⟨hn, ho, hk0, fun M hM => ?_⟩
  obtain ⟨m, hm, hall⟩ := hk1 M hM
  refine ⟨m, hm, fun k => ?_⟩
  rcases hall k with h | ⟨hMk, hmk, cv', hcv', hq, hv⟩
  · exact Or.inl h
  · rcases List.mem_cons.1 hcv' with rfl | hin
    · rw [← h3, hp] at hq
      cases hq
      exact absurd (hv ▸ hmk) (hno m hm)
    · exact Or.inr ⟨hMk, hmk, cv', hin, hq, hv⟩

/-- Dropping the first pending pair after its entry has been deleted. -/
theorem touched_delete {T t : table} {id : Nat} {cv : columnValue} {rest : List columnValue}
    {p : Nat} {key : GoMap Nat} (hT : ∀ q M k, (T.heap q).key = some M → M k ≠ some id)
    (h : Touched T id (cv :: rest) t) (hp : t.colMap cv.col = some p)
    (hkey : (t.heap p).key = some key) (hid : key cv.val = some id) :
    Touched T id rest (t.setKey p (some (key.delete cv.val))) := by
  obtain ⟨h1, h2, h3, h4, h5, h6⟩ := h
  refine ⟨h1, h2, h3, h4, h5, fun q => ?_⟩
  obtain ⟨hn, ho, hk0, hk1⟩ := h6 q
  by_cases hqp : q = p
  · subst hqp
    rw [setKey_heap_same]
    refine ⟨hn, ho, fun hnone => ?_, fun M hM => ?_⟩
    · rw [hk0 hnone] at hkey; cases hkey
    · obtain ⟨m, hm, hall⟩ := hk1 M hM
      rw [hkey] at hm
      cases hm
      refine ⟨_, rfl, fun k => ?_⟩
      rw [GoMap.delete_apply]
      by_cases hk : k = cv.val
      · subst hk
        simp only [if_true]
        rcases hall cv.val with h | ⟨hMk, _, _⟩
        · exact absurd (h ▸ hid) (hT q M cv.val hM)
        · exact Or.inl hMk.symm
      · simp only [hk, if_false]
        rcases hall k with h | ⟨hMk, hmk, cv', hcv', hq, hv⟩
        · exact Or.inl h
        · rcases List.mem_cons.1 hcv' with rfl | hin
          · exact absurd hv.symm hk
          · exact Or.inr ⟨hMk, hmk, cv', hin, hq, hv⟩
  · rw [setKey_heap_ne _ _ hqp]
    refine ⟨hn, ho, hk0, fun M hM => ?_⟩
    obtain ⟨m, hm, hall⟩ := hk1 M hM
    refine ⟨m, hm, fun k => ?_⟩
    rcases hall k with h | ⟨hMk, hmk, cv', hcv', hq, hv⟩
    · exact Or.inl h
    · rcases List.mem_cons.1 hcv' with rfl | hin
      · rw [← h3, hp] at hq
        cases hq
        exact absurd rfl hqp
      · exact Or.inr ⟨hMk, hmk, cv', hin, hq, hv⟩

theorem rollbackKeys_touched {T : table} {id : Nat}
    (hT : ∀ q M k, (T.heap q).key = some M → M k ≠ some id) :
    ∀ (pending : List columnValue) (t t' : table), Touched T id pending t →
      rollbackKeys id pending t = some t' → t' = T := by
  intro pending
  induction pending with
  | nil =>
    intro t t' h hr
    simp only [rollbackKeys, Option.some.injEq] at hr
    subst hr
    exact touched_nil h
  | cons cv rest ih =>
    intro t t' h hr
    unfold rollbackKeys at hr
    cases hp : t.colMap cv.col with
    | none => simp [table.getColumn, hp] at hr
    | some p =>
      simp only [table.getColumn, hp] at hr
      cases hkey : (t.heap p).key with
      | none =>
        simp only [hkey] at hr
        exact ih t t' (touched_skip h hp (by simp [hkey])) hr
      | some key =>
        simp only [hkey] at hr
        by_cases hid : key cv.val = some id
        · simp only [hid, if_true] at hr
          exact ih _ t' (touched_delete hT h hp hkey hid) hr
        · simp only [hid, if_false] at hr
          refine ih t t' (touched_skip h hp ?_) hr
          intro m hm
          rw [hkey] at hm
          cases hm
          exact hid

theorem rollbackKeys_colMap {id : Nat} :
    ∀ (cvs : List columnValue) (t t' : table), rollbackKeys id cvs t = some t' →
      ∀ cv ∈ cvs, t.colMap cv.col ≠ none := by
  intro cvs
  induction cvs with
  | nil => intro t t' _ cv hcv; simp at hcv
  | cons c rest ih =>
    intro t t' hr cv hcv
    unfold rollbackKeys at hr
    cases hp : t.colMap c.col with
    | none => simp [table.getColumn, hp] at hr
    | some p =>
      simp only [table.getColumn, hp] at hr
      rcases List.mem_cons.1 hcv with rfl | hin
      · simp [hp]
      · cases hkey : (t.heap p).key with
        | none =>
          simp only [hkey] at hr
          exact ih t t' hr cv hin
        | some key =>
          simp only [hkey] at hr
          by_cases hid : key c.val = some id
          · simp only [hid, if_true] at hr
            exact ih _ t' hr cv hin
          · simp only [hid, if_false] at hr
            exact ih t t' hr cv hin

theorem foldl_delete_colMap (ns : List String) :
    ∀ (s : table) (n : String), n ∈ ns →
      (ns.foldl (fun (s : table) newColumn =>
        (⟨s.name, s.heap, s.next, s.colMap.delete newColumn, s.colSlice, s.records⟩ : table))
        s).colMap n = none := by
  induction ns using List.reverseRecOn with
  | nil => intro s n hn; simp at hn
  | append_singleton l a ih =>
    intro s n hn
    rw [List.foldl_append]
    simp only [List.foldl_cons, List.foldl_nil, GoMap.delete_apply]
    by_cases h : n = a
    · simp [h]
    · simp only [h, if_false]
      rcases List.mem_append.1 hn with h1 | h1
      · exact ih s n h1
      · simp at h1; exact absurd h1 h

theorem rollback_newColumns (t : table) (id colLen : Nat) (all : List columnValue)
    (nc : List String) (hne : nc ≠ []) (hnc : ∀ n ∈ nc, ∃ cv ∈ all, cv.col = n) :
    t.rollback id colLen all nc = none := by
  cases h : t.rollback id colLen all nc with
  | none => rfl
  | some t' =>
    exfalso
    obtain ⟨n, hn⟩ := List.exists_mem_of_ne_nil nc hne
    obtain ⟨cv, hcv, hcol⟩ := hnc n hn
    unfold table.rollback at h
    have := rollbackKeys_colMap all _ t' h cv hcv
    rw [hcol] at this
    exact this (foldl_delete_colMap nc _ n hn)

theorem rollback_touched {T t t' : table} {id : Nat} {all : List columnValue}
    (hT : ∀ q M k, (T.heap q).key = some M → M k ≠ some id)
    (h : Touched T id all t) (hr : t.rollback id T.colSlice.length all [] = some t') :
    t' = T := by
  unfold table.rollback at hr
  simp only [List.foldl_nil] at hr
  have h4 : t.colSlice = T.colSlice := h.2.2.2.1
  rw [← h4, List.take_length] at hr
  exact rollbackKeys_touched hT all _ t' h hr

theorem addColumn_heap_next (t : table) (n : String) :
    ((t.addColumn n).1.heap t.next).key = none := by
  simp [table.addColumn]

/-- Recording the entry written for a pair that names an existing keyed column. -/
theorem touched_set {T t : table} {id : Nat} {all : List columnValue} {cv : columnValue}
    {p : Nat} {key : GoMap Nat} (h : Touched T id all t) (hcv : cv ∈ all)
    (hp : t.colMap cv.col = some p) (hkey : (t.heap p).key = some key)
    (habs : key cv.val = none) :
    Touched T id all (t.setKey p (some (key.set cv.val id))) := by
  obtain ⟨h1, h2, h3, h4, h5, h6⟩ := h
  refine ⟨h1, h2, h3, h4, h5, fun q => ?_⟩
  obtain ⟨hn, ho, hk0, hk1⟩ := h6 q
  by_cases hqp : q = p
  · subst hqp
    rw [setKey_heap_same]
    refine ⟨hn, ho, fun hnone => ?_, fun M hM => ?_⟩
    · rw [hk0 hnone] at hkey; cases hkey
    · obtain ⟨m, hm, hall⟩ := hk1 M hM
      rw [hkey] at hm
      cases hm
      refine ⟨_, rfl, fun k => ?_⟩
      rw [GoMap.set_apply]
      by_cases hk : k = cv.val
      · subst hk
        rw [if_pos rfl]
        refine Or.inr ⟨?_, rfl, cv, hcv, h3 ▸ hp, rfl⟩
        rcases hall cv.val with h | ⟨hMk, _, _⟩
        · rw [← h]; exact habs
        · exact hMk
      · simp only [hk, if_false]
        exact hall k
  · rw [setKey_heap_ne _ _ hqp]
    exact ⟨hn, ho, hk0, hk1⟩

theorem sqlInsertLoop_error (T : table) (id : Nat) (all : List columnValue)
    (hT : ∀ q M k, (T.heap q).key = some M → M k ≠ some id) :
    ∀ (rest : List columnValue) (t : table) (rec : record) (nc : List String) (e : String)
      (t' : table), (∀ cv ∈ rest, cv ∈ all) → (∀ n ∈ nc, ∃ cv ∈ all, cv.col = n) →
      (nc = [] → Touched T id all t) →
      sqlInsertLoop id T.colSlice.length all rest t rec nc = some (response.errorResponse e, t') →
      t' = T := by
  intro rest
  induction rest with
  | nil =>
    intro t rec nc e t' _ _ _ h
    simp [sqlInsertLoop] at h
  | cons cv rest ih =>
    intro t rec nc e t' hrest hnc htouched h
    have hcv : cv ∈ all := hrest cv (List.mem_cons_self _ _)
    have hrest' : ∀ c ∈ rest, c ∈ all := fun c hc => hrest c (List.mem_cons_of_mem _ hc)
    unfold sqlInsertLoop at h
    cases hp : t.colMap cv.col with
    | none =>
      simp only [table.getAddColumn, hp, Bool.not_true, Bool.false_and, if_true] at h
      have hk : ((t.addColumn cv.col).1.heap (t.addColumn cv.col).2).key = none :=
        addColumn_heap_next t cv.col
      simp only [hk] at h
      refine ih _ _ _ e t' hrest' ?_ ?_ h
      · intro n hn
        rcases List.mem_append.1 hn with h1 | h1
        · exact hnc n h1
        · simp at h1; exact ⟨cv, hcv, h1.symm⟩
      · intro hnil; simp at hnil
    | some p =>
      simp only [table.getAddColumn, hp, Bool.not_false, Bool.true_and] at h
      cases hkey : (t.heap p).key with
      | none =>
        simp only [column.hasKey, hkey, Option.isSome_none, Bool.false_and] at h
        exact ih _ _ _ e t' hrest' hnc htouched h
      | some key =>
        cases hval : key cv.val with
        | some i =>
          simp only [column.hasKey, column.keyContainsValue, hkey, hval, Option.isSome_some,
            Bool.and_self, if_true] at h
          cases hr : t.rollback id T.colSlice.length all nc with
          | none => simp [hr] at h
          | some t2 =>
            simp only [hr, Option.some.injEq, Prod.mk.injEq] at h
            obtain ⟨_, rfl⟩ := h
            by_cases hnil : nc = []
            · subst hnil
              exact rollback_touched hT (htouched rfl) hr
            · rw [rollback_newColumns t id _ all nc hnil hnc] at hr
              cases hr
        | none =>
          simp only [column.hasKey, column.keyContainsValue, hkey, hval, Option.isSome_some,
            Option.isSome_none, Bool.and_false, if_false] at h
          refine ih _ _ _ e t' hrest' hnc ?_ h
          intro hnil
          exact touched_set (htouched hnil) hcv hp hkey hval

theorem touched_refl (T : table) (id : Nat) (all : List columnValue) : Touched T id all T :=
  ⟨rfl, rfl, rfl, rfl, rfl, fun _ => ⟨rfl, rfl, fun h => h, fun M hM => ⟨M, hM, fun _ => Or.inl rfl⟩⟩⟩

/-- An insert that returns an error response leaves a table with bounded key
targets exactly as it found it. -/
theorem sqlInsert_error_eq {t t' : table} {req : sqlInsertRequest} {e : String}
    (hb : KeysBounded t) (h : t.sqlInsert req = some (response.errorResponse e, t')) :
    t' = t := by
  unfold table.sqlInsert at h
  refine sqlInsertLoop_error t t.records.elems.length req.colVals ?_ req.colVals t _ [] e t'
    (fun _ h => h) (by simp) (fun _ => touched_refl _ _ _) h
  intro q M k hM hk
  have := hb q M k _ hM hk
  exact absurd this (lt_irrefl _)

/-! ## The scan of `sqlKey` -/

theorem sqlKeyScan_isSome {col : column} (hcol : col.key = none) :
    ∀ (recs : List record) (idx : Nat) (key : GoMap Nat),
      ∃ m, sqlKeyScan col recs idx key = some m := by
  intro recs
  induction recs with
  | nil => intro idx key; exact ⟨key, rfl⟩
  | cons r rest ih =>
    intro idx key
    simp only [sqlKeyScan, column.keyContainsValue, hcol, Bool.false_eq_true, if_false]
    exact ih _ _

theorem sqlKeyScan_sound {col : column} :
    ∀ (recs : List record) (idx : Nat) (key m : GoMap Nat),
      sqlKeyScan col recs idx key = some m → ∀ k i, m k = some i →
        key k = some i ∨
        (idx ≤ i ∧ ∃ r, recs[i - idx]? = some r ∧ r.getValue col.ordinal = k) := by
  intro recs
  induction recs with
  | nil =>
    intro idx key m h k i hk
    simp only [sqlKeyScan, Option.some.injEq] at h
    subst h
    exact Or.inl hk
  | cons r rest ih =>
    intro idx key m h k i hk
    unfold sqlKeyScan at h
    by_cases hc : col.keyContainsValue (r.getValue col.ordinal) = true
    · simp [hc] at h
    · simp only [hc, if_false] at h
      rcases ih _ _ _ h k i hk with h1 | ⟨hle, r', hr', hv⟩
      · rw [GoMap.set_apply] at h1
        by_cases hkv : k = r.getValue col.ordinal
        · rw [if_pos hkv] at h1
          cases h1
          exact Or.inr ⟨le_refl _, r, by simp, hkv.symm⟩
        · rw [if_neg hkv] at h1
          exact Or.inl h1
      · refine Or.inr ⟨by omega, r', ?_, hv⟩
        have : i - idx = (i - (idx + 1)) + 1 := by omega
        rw [this, List.getElem?_cons_succ]
        exact hr'

theorem sqlKeyScan_other {col : column} :
    ∀ (recs : List record) (idx : Nat) (key m : GoMap Nat),
      sqlKeyScan col recs idx key = some m → ∀ k,
        k ∉ recs.map (fun r => r.getValue col.ordinal) → m k = key k := by
  intro recs
  induction recs with
  | nil =>
    intro idx key m h k _
    simp only [sqlKeyScan, Option.some.injEq] at h
    subst h
    rfl
  | cons r rest ih =>
    intro idx key m h k hk
    unfold sqlKeyScan at h
    by_cases hc : col.keyContainsValue (r.getValue col.ordinal) = true
    · simp [hc] at h
    · simp only [hc, if_false] at h
      simp only [List.map_cons, List.mem_cons, not_or] at hk
      rw [ih _ _ _ h k hk.2, GoMap.set_apply, if_neg hk.1]

theorem sqlKeyScan_complete {col : column} :
    ∀ (recs : List record) (idx : Nat) (key m : GoMap Nat),
      sqlKeyScan col recs idx key = some m →
      (recs.map (fun r => r.getValue col.ordinal)).Nodup →
      ∀ j r, recs[j]? = some r → m (r.getValue col.ordinal) = some (idx + j) := by
  intro recs
  induction recs with
  | nil => intro idx key m _ _ j r hr; simp at hr
  | cons r0 rest ih =>
    intro idx key m h hnd j r hr
    unfold sqlKeyScan at h
    by_cases hc : col.keyContainsValue (r0.getValue col.ordinal) = true
    · simp [hc] at h
    · simp only [hc, if_false] at h
      simp only [List.map_cons, List.nodup_cons] at hnd
      cases j with
      | zero =>
        simp only [List.getElem?_cons_zero, Option.some.injEq] at hr
        subst hr
        rw [sqlKeyScan_other _ _ _ _ h _ hnd.1, GoMap.set_apply, if_pos rfl]
        rfl
      | succ j =>
        rw [List.getElem?_cons_succ] at hr
        rw [ih _ _ _ h hnd.2 j r hr]
        congr 1
        omega

/-! ## Appending the record -/

theorem addRecordToSlice_elems (s : Slice record) (r : record) :
    (addRecordToSlice s r).elems = s.elems ++ [r] := by
  unfold addRecordToSlice Slice.append
  dsimp only
  split_ifs <;> rfl

/-! ## The loop of `sqlInsert` -/

/-- Induction over the loop of `sqlInsert`: a property kept by each of the three
ways an iteration can continue holds when the record is committed. -/
theorem sqlInsertLoop_cases (P : List columnValue → table → record → Prop)
    (id len : Nat) (all : List columnValue)
    (hnew : ∀ cv rest t rec, P (cv :: rest) t rec → t.colMap cv.col = none →
      P rest (t.addColumn cv.col).1 (rec.setValue t.colSlice.length cv.val))
    (hnokey : ∀ cv rest t rec p, P (cv :: rest) t rec → t.colMap cv.col = some p →
      (t.heap p).key = none → P rest t (rec.setValue (t.heap p).ordinal cv.val))
    (hkey : ∀ cv rest t rec p m, P (cv :: rest) t rec → t.colMap cv.col = some p →
      (t.heap p).key = some m → m cv.val = none →
      P rest (t.setKey p (some (m.set cv.val id))) (rec.setValue (t.heap p).ordinal cv.val)) :
    ∀ (rest : List columnValue) (t : table) (rec : record) (nc : List String) (r : response)
      (t' : table), P rest t rec →
      sqlInsertLoop id len all rest t rec nc = some (r, t') →
      (∃ e, r = response.errorResponse e) ∨
      (∃ tf rf, P [] tf rf ∧ r = response.sqlInsertResponse rf.getId ∧
        t' = tf.addNewRecord rf) := by
  intro rest
  induction rest with
  | nil =>
    intro t rec nc r t' hP h
    simp only [sqlInsertLoop, Option.some.injEq, Prod.mk.injEq] at h
    exact Or.inr ⟨t, rec, hP, h.1.symm, h.2.symm⟩
  | cons cv rest ih =>
    intro t rec nc r t' hP h
    unfold sqlInsertLoop at h
    cases hp : t.colMap cv.col with
    | none =>
      simp only [table.getAddColumn, hp, Bool.not_true, Bool.false_and, if_true] at h
      have hk : ((t.addColumn cv.col).1.heap (t.addColumn cv.col).2).key = none :=
        addColumn_heap_next t cv.col
      simp only [hk] at h
      have ho : ((t.addColumn cv.col).1.heap (t.addColumn cv.col).2).ordinal =
          t.colSlice.length := by simp [table.addColumn]
      rw [ho] at h
      exact ih _ _ _ r t' (hnew cv rest t rec hP hp) h
    | some p =>
      simp only [table.getAddColumn, hp, Bool.not_false, Bool.true_and] at h
      cases hkeyp : (t.heap p).key with
      | none =>
        simp only [column.hasKey, hkeyp, Option.isSome_none, Bool.false_and] at h
        exact ih _ _ _ r t' (hnokey cv rest t rec p hP hp hkeyp) h
      | some key =>
        cases hval : key cv.val with
        | some i =>
          simp only [column.hasKey, column.keyContainsValue, hkeyp, hval, Option.isSome_some,
            Bool.and_self, if_true] at h
          cases hr : t.rollback id len all nc with
          | none => simp [hr] at h
          | some t2 =>
            simp only [hr, Option.some.injEq, Prod.mk.injEq] at h
            exact Or.inl ⟨_, h.1.symm⟩
        | none =>
          simp only [column.hasKey, column.keyContainsValue, hkeyp, hval, Option.isSome_some,
            Option.isSome_none, Bool.and_false, if_false] at h
          have ho : ((t.setKey p (some (key.set cv.val id))).heap p).ordinal =
              (t.heap p).ordinal := by rw [setKey_heap_same]
          rw [ho] at h
          exact ih _ _ _ r t' (hkey cv rest t rec p key hP hp hkeyp hval) h

/-! ## Registry consistency and bounded key targets are invariants -/

theorem getElem?_lt_length {α : Type} {l : List α} {i : Nat} {a : α} (h : l[i]? = some a) :
    i < l.length := by
  by_contra hc
  rw [List.getElem?_eq_none (by omega)] at h
  cases h

theorem registry_newTable (nm : String) : Registry (newTable nm) := by
  refine ⟨fun n p h => ?_, fun i p h => ?_, fun p m h => ?_⟩
  · simp only [newTable, table.addColumn, GoMap.set_apply, GoMap.empty] at h ⊢
    by_cases hn : n = "id"
    · simp only [hn, if_true, Option.some.injEq] at h
      subst h
      simp [hn]
    · simp [hn] at h
  · simp only [newTable, table.addColumn, List.length_nil, List.nil_append] at h ⊢
    cases i with
    | zero =>
      simp only [List.getElem?_cons_zero, Option.some.injEq] at h
      subst h
      simp [GoMap.set_apply]
    | succ i => simp at h
  · simp only [newTable, table.addColumn, Function.update_apply] at h
    split_ifs at h

theorem keysBounded_newTable (nm : String) : KeysBounded (newTable nm) := by
  intro p m k i h
  simp only [newTable, table.addColumn, Function.update_apply] at h
  split_ifs at h

theorem registry_addColumn {t : table} {n : String} (h : Registry t)
    (hn : t.colMap n = none) : Registry (t.addColumn n).1 := by
  obtain ⟨ha, hb, hc⟩ := h
  refine ⟨fun x p hx => ?_, fun i p hi => ?_, fun p m hm => ?_⟩
  · simp only [table.addColumn, GoMap.set_apply] at hx ⊢
    by_cases hxn : x = n
    · rw [if_pos hxn] at hx
      cases hx
      simp [hxn]
    · rw [if_neg hxn] at hx
      obtain ⟨h1, h2, h3⟩ := ha x p hx
      have hne : p ≠ t.next := by omega
      rw [Function.update_noteq hne]
      refine ⟨h1, by omega, ?_⟩
      rw [List.getElem?_append_left (getElem?_lt_length h3)]
      exact h3
  · simp only [table.addColumn, GoMap.set_apply] at hi ⊢
    by_cases hlt : i < t.colSlice.length
    · rw [List.getElem?_append_left hlt] at hi
      obtain ⟨h1, h2⟩ := hb i p hi
      have hne : p ≠ t.next := by
        have := (ha _ p h2).2.1
        omega
      rw [Function.update_noteq hne]
      refine ⟨h1, ?_⟩
      have hname : (t.heap p).name ≠ n := by
        intro hc2
        rw [hc2, hn] at h2
        cases h2
      rw [if_neg hname]
      exact h2
    · have hi2 := getElem?_lt_length hi
      simp only [List.length_append, List.length_singleton] at hi2
      have hil : i = t.colSlice.length := by omega
      subst hil
      simp only [List.getElem?_concat_length, Option.some.injEq] at hi
      subst hi
      simp
  · simp only [table.addColumn] at hm ⊢
    by_cases hp : p = t.next
    · subst hp
      simp at hm
    · rw [Function.update_noteq hp] at hm ⊢
      have h2 := hc p m hm
      have hname : (t.heap p).name ≠ n := by
        intro hc2
        rw [hc2, hn] at h2
        cases h2
      rw [GoMap.set_apply, if_neg hname]
      exact h2

theorem registry_setKey {t : table} {p : Nat} (key : Option (GoMap Nat)) (h : Registry t)
    (hp : t.colMap (t.heap p).name = some p) : Registry (t.setKey p key) := by
  obtain ⟨ha, hb, hc⟩ := h
  have hname : ∀ q, ((t.setKey p key).heap q).name = (t.heap q).name := by
    intro q
    by_cases hq : q = p
    · subst hq; rw [setKey_heap_same]
    · rw [setKey_heap_ne _ _ hq]
  have hord : ∀ q, ((t.setKey p key).heap q).ordinal = (t.heap q).ordinal := by
    intro q
    by_cases hq : q = p
    · subst hq; rw [setKey_heap_same]
    · rw [setKey_heap_ne _ _ hq]
  refine ⟨fun x q hx => ?_, fun i q hi => ?_, fun q m hm => ?_⟩
  · rw [hname, hord]
    exact ha x q hx
  · rw [hname, hord]
    exact hb i q hi
  · rw [hname]
    by_cases hq : q = p
    · subst hq; exact hp
    · rw [setKey_heap_ne _ _ hq] at hm
      exact hc q m hm

theorem keysLe_addColumn {t : table} {b : Nat} (n : String) (h : KeysLe t b) :
    KeysLe (t.addColumn n).1 b := by
  intro p m k i hm hk
  simp only [table.addColumn] at hm
  by_cases hp : p = t.next
  · subst hp
    simp at hm
  · rw [Function.update_noteq hp] at hm
    exact h p m k i hm hk

theorem keysLe_setKey {t : table} {b : Nat} {p : Nat} {key : GoMap Nat} (h : KeysLe t b)
    (hkey : ∀ k i, key k = some i → i ≤ b) : KeysLe (t.setKey p (some key)) b := by
  intro q m k i hm hk
  by_cases hq : q = p
  · subst hq
    rw [setKey_heap_same] at hm
    simp only [Option.some.injEq] at hm
    subst hm
    exact hkey k i hk
  · rw [setKey_heap_ne _ _ hq] at hm
    exact h q m k i hm hk

/-- The ways `sqlKey` can return: with an error response and the table as it
was, or with `okResponse` after attaching the scanned mapping to an existing
column that had no key. -/
theorem sqlKey_cases {t t' : table} {req : sqlKeyRequest} {r : response}
    (h : t.sqlKey req = some (r, t')) :
    ((∃ e, r = response.errorResponse e) ∧ t' = t) ∨
    (∃ p m, t.colMap req.column = some p ∧ (t.heap p).key = none ∧
      sqlKeyScan (t.heap p) t.records.elems 0 GoMap.empty = some m ∧
      r = response.okResponse ∧ t' = t.setKey p (some m)) := by
  unfold table.sqlKey at h
  cases hp : t.colMap req.column with
  | none =>
    simp only [table.getColumn, hp] at h
    by_cases hr : t.records.elems.length > 0
    · simp only [hr, if_true, Option.some.injEq, Prod.mk.injEq] at h
      exact Or.inl ⟨⟨_, h.1.symm⟩, h.2.symm⟩
    · simp only [hr, if_false] at h
      split at h <;> cases h
  | some p =>
    simp only [table.getColumn, hp] at h
    cases hk : (t.heap p).key with
    | some m0 =>
      simp only [column.hasKey, hk, Option.isSome_some, if_true, Option.some.injEq,
        Prod.mk.injEq] at h
      exact Or.inl ⟨⟨_, h.1.symm⟩, h.2.symm⟩
    | none =>
      simp only [column.hasKey, hk, Option.isSome_none, Bool.false_eq_true, if_false] at h
      obtain ⟨m, hm⟩ := sqlKeyScan_isSome hk t.records.elems 0 GoMap.empty
      simp only [hm, Option.some.injEq, Prod.mk.injEq] at h
      exact Or.inr ⟨p, m, rfl, hk, hm, h.1.symm, h.2.symm⟩

theorem sqlKey_inv {t t' : table} {req : sqlKeyRequest} {r : response}
    (hb : KeysBounded t) (hreg : Registry t) (h : t.sqlKey req = some (r, t')) :
    KeysBounded t' ∧ Registry t' := by
  rcases sqlKey_cases h with ⟨_, rfl⟩ | ⟨p, m, hp, _, hm, _, rfl⟩
  · exact ⟨hb, hreg⟩
  · refine ⟨?_, registry_setKey _ hreg ?_⟩
    · intro q m' k i hq hk
      show i < t.records.elems.length
      by_cases hqp : q = p
      · subst hqp
        rw [setKey_heap_same] at hq
        simp only [Option.some.injEq] at hq
        subst hq
        rcases sqlKeyScan_sound _ _ _ _ hm k i hk with h1 | ⟨_, r', hr', _⟩
        · simp [GoMap.empty] at h1
        · exact getElem?_lt_length hr'
      · rw [setKey_heap_ne _ _ hqp] at hq
        exact hb q m' k i hq hk
    · rw [(hreg.1 _ p hp).1]
      exact hp

/-- What a returning `sqlInsert` does to the two invariants and to the records:
on an error nothing changes, on success one record is appended. -/
theorem sqlInsert_inv {t t' : table} {req : sqlInsertRequest} {r : response}
    (hb : KeysBounded t) (hreg : Registry t) (h : t.sqlInsert req = some (r, t')) :
    KeysBounded t' ∧ Registry t' := by
  have hc := sqlInsertLoop_cases
    (fun _ s _ => KeysLe s t.records.elems.length ∧ Registry s ∧ s.records = t.records)
    t.records.elems.length t.colSlice.length req.colVals
    (fun cv rest s rec hP hn => ⟨keysLe_addColumn _ hP.1, registry_addColumn hP.2.1 hn, hP.2.2⟩)
    (fun cv rest s rec p hP _ _ => hP)
    (fun cv rest s rec p m hP hp hm _ => ⟨keysLe_setKey hP.1 (fun k i hk => by
        rw [GoMap.set_apply] at hk
        split_ifs at hk
        · cases hk; exact le_refl _
        · exact hP.1 p m k i hm hk),
      registry_setKey _ hP.2.1 (by rw [(hP.2.1.1 _ p hp).1]; exact hp), hP.2.2⟩)
    req.colVals t t.newRecord.1 [] r t'
    ⟨fun p m k i hm hk => le_of_lt (hb p m k i hm hk), hreg, rfl⟩ h
  rcases hc with ⟨e, rfl⟩ | ⟨tf, rf, ⟨hle, hreg', hrec⟩, _, rfl⟩
  · rw [sqlInsert_error_eq hb h]
    exact ⟨hb, hreg⟩
  · refine ⟨?_, hreg'⟩
    intro p m k i hm hk
    show i < (addRecordToSlice tf.records rf).elems.length
    rw [addRecordToSlice_elems, hrec, List.length_append, List.length_singleton]
    exact Nat.lt_succ_of_le (hle p m k i hm hk)

theorem sqlSelect_eq {t t' : table} {req : sqlSelectRequest} {r : response}
    (h : t.sqlSelect req = some (r, t')) : t' = t := by
  unfold table.sqlSelect at h
  split_ifs at h <;> simp only [Option.some.injEq, Prod.mk.injEq] at h <;> exact h.2.symm

theorem step_inv {t t' : table} {op : Op} {r : response}
    (hb : KeysBounded t) (hreg : Registry t) (h : step t op = some (r, t')) :
    KeysBounded t' ∧ Registry t' := by
  cases op with
  | key req => exact sqlKey_inv hb hreg h
  | insert req => exact sqlInsert_inv hb hreg h
  | select req => rw [sqlSelect_eq h]; exact ⟨hb, hreg⟩

theorem runOps_inv :
    ∀ (ops : List Op) (t t' : table), KeysBounded t → Registry t →
      runOps ops t = some t' → KeysBounded t' ∧ Registry t' := by
  intro ops
  induction ops with
  | nil =>
    intro t t' hb hreg h
    simp only [runOps, Option.some.injEq] at h
    subst h
    exact ⟨hb, hreg⟩
  | cons op ops ih =>
    intro t t' hb hreg h
    unfold runOps at h
    cases hs : step t op with
    | none => simp [hs] at h
    | some r =>
      simp only [hs] at h
      obtain ⟨hb', hreg'⟩ := @step_inv t r.2 op r.1 hb hreg hs
      exact ih _ _ hb' hreg' h

theorem reachable_inv {nm : String} {ops : List Op} {t : table}
    (h : runOps ops (newTable nm) = some t) : KeysBounded t ∧ Registry t :=
  runOps_inv ops _ t (keysBounded_newTable nm) (registry_newTable nm) h

/-! ## Claims about single calls -/

/-- C1. Rollback exactness: in every table reachable from `newTable` by `sqlKey`,
`sqlInsert` and `sqlSelect` calls that each returned a response, an `sqlInsert`
that returns an error response hands back the table exactly as it was before the
call: same column sequence, same name lookup, same column objects with the same
key index contents, same record sequence. -/
theorem sqlInsert_error_rollback_exact (nm : String) (ops : List Op) (t : table)
    (req : sqlInsertRequest) (err : String) (t' : table)
    (hreach : runOps ops (newTable nm) = some t)
    (herr : t.sqlInsert req = some (response.errorResponse err, t')) :
    t' = t ∧ t'.colSlice = t.colSlice ∧ t'.getColumnCount = t.getColumnCount ∧
      t'.colMap = t.colMap ∧ (∀ p, (t'.heap p).key = (t.heap p).key) ∧
      t'.records.elems = t.records.elems ∧ t'.getRecordCount = t.getRecordCount := by
  have h := sqlInsert_error_eq (reachable_inv hreach).1 herr
  subst h
  exact ⟨rfl, rfl, rfl, rfl, fun _ => rfl, rfl, rfl⟩

theorem sqlInsert_error_rollback_exact_witness :
    runOps stocksOps (newTable "stocks") = some stocksTable ∧
    stocksTable.sqlInsert duplicateReq =
      some (response.errorResponse "insert failed due to duplicate column key:symbol value:ABC",
        stocksAfterDuplicate) ∧
    stocksAfterDuplicate = stocksTable :=
  ⟨rfl, rfl, (sqlInsert_error_rollback_exact "stocks" stocksOps stocksTable duplicateReq
    "insert failed due to duplicate column key:symbol value:ABC" stocksAfterDuplicate
    rfl rfl).1⟩

/-- C2, at the failing input. On the reachable table `stocksTable` (key index on
`symbol` holding ABC), an insert that names the new column `volume` and then the
duplicate `symbol` value ABC does not return an error response: `rollback`
dereferences the nil column it gets for `volume`, so the call does not return. -/
theorem sqlInsert_duplicate_after_new_column_panics :
    runOps stocksOps (newTable "stocks") = some stocksTable ∧
    stocksTable.getColumn "volume" = none ∧
    (stocksTable.getColumn "symbol").map
      (fun p => (stocksTable.heap p).keyContainsValue "ABC") = some true ∧
    stocksTable.sqlInsert newColumnDuplicateReq = none :=
  ⟨rfl, rfl, rfl, rfl⟩

/-- C3, at the failing input. Defining a key on the absent column `symbol` of a
new table does not return `okResponse`: the column is created inside the block
through a shadowing variable, and the assignment after the block goes through
the outer nil pointer. -/
theorem sqlKey_new_column_panics :
    (newTable "stocks").getRecordCount = 0 ∧
    (newTable "stocks").getColumn "symbol" = none ∧
    (newTable "stocks").sqlKey ⟨"symbol"⟩ = none :=
  ⟨rfl, rfl, rfl⟩

/-- On any table without records, `sqlKey` on a column name that does not exist
does not return. -/
theorem sqlKey_absent_column_no_records (t : table) (req : sqlKeyRequest)
    (hcol : t.getColumn req.column = none) (hrec : t.getRecordCount = 0) :
    t.sqlKey req = none := by
  unfold table.getRecordCount at hrec
  unfold table.sqlKey
  simp only [hcol, hrec, gt_iff_lt, lt_irrefl, if_false]
  split <;> rfl

/-- C4, at the failing input. On the reachable table `repeatedTable`, whose two
records both hold ABC at the ordinal of the unkeyed column `symbol`, `sqlKey` on
`symbol` returns `okResponse` and the column has a key index afterwards: the
scan tests the column's own (nil) key, not the mapping it is building. -/
theorem sqlKey_repeated_values_accepted :
    runOps repeatedOps (newTable "stocks") = some repeatedTable ∧
    repeatedTable.getColumn "symbol" = some 1 ∧
    (repeatedTable.heap 1).hasKey = false ∧
    repeatedTable.records.elems.map (fun r => r.getValue (repeatedTable.heap 1).ordinal)
      = ["ABC", "ABC"] ∧
    (repeatedTable.sqlKey ⟨"symbol"⟩).map Prod.fst = some response.okResponse ∧
    (repeatedTable.sqlKey ⟨"symbol"⟩).map (fun r => (r.2.heap 1).hasKey) = some true :=
  ⟨rfl, rfl, rfl, rfl, rfl, rfl⟩

/-- C5. On an existing column without a key index whose values are pairwise
distinct across the stored records, `sqlKey` returns `okResponse` and attaches a
key mapping whose entries are exactly (value of record i at the column's
ordinal -> i); the column keeps its name and ordinal, and every other column,
the name lookup, the column sequence and the records are unchanged. -/
theorem sqlKey_distinct_values_attaches_index (t : table) (req : sqlKeyRequest) (p : Nat)
    (hcol : t.getColumn req.column = some p) (hnokey : (t.heap p).hasKey = false)
    (hdistinct : (t.records.elems.map (fun r => r.getValue (t.heap p).ordinal)).Nodup) :
    ∃ m t', t.sqlKey req = some (response.okResponse, t') ∧
      (t'.heap p).key = some m ∧
      (∀ v i, m v = some i ↔
        ∃ r, t.records.elems[i]? = some r ∧ r.getValue (t.heap p).ordinal = v) ∧
      (t'.heap p).name = (t.heap p).name ∧ (t'.heap p).ordinal = (t.heap p).ordinal ∧
      (∀ q, q ≠ p → t'.heap q = t.heap q) ∧
      t'.colMap = t.colMap ∧ t'.colSlice = t.colSlice ∧ t'.records = t.records ∧
      t'.next = t.next ∧ t'.name = t.name := by
  have hp : t.colMap req.column = some p := by
    unfold table.getColumn at hcol
    split at hcol
    · rename_i q hq; rw [hq]; exact hcol
    · cases hcol
  have hk : (t.heap p).key = none := by
    unfold column.hasKey at hnokey
    cases hk : (t.heap p).key with
    | none => rfl
    | some m => simp [hk] at hnokey
  obtain ⟨m, hm⟩ := sqlKeyScan_isSome hk t.records.elems 0 GoMap.empty
  refine ⟨m, t.setKey p (some m), ?_, ?_, ?_, ?_, ?_, ?_, rfl, rfl, rfl, rfl, rfl⟩
  · unfold table.sqlKey
    simp only [table.getColumn, hp, column.hasKey, hk, Option.isSome_none, Bool.false_eq_true,
      if_false, hm]
    rfl
  · rw [setKey_heap_same]
  · intro v i
    constructor
    · intro hv
      rcases sqlKeyScan_sound _ _ _ _ hm v i hv with h1 | ⟨_, r, hr, hrv⟩
      · simp [GoMap.empty] at h1
      · exact ⟨r, by simpa using hr, hrv⟩
    · rintro ⟨r, hr, rfl⟩
      have := sqlKeyScan_complete _ _ _ _ hm hdistinct i r hr
      simpa using this
  · rw [setKey_heap_same]
  · rw [setKey_heap_same]
  · intro q hq
    exact setKey_heap_ne _ _ hq

theorem sqlKey_distinct_values_attaches_index_witness :
    distinctTable.getColumn "symbol" = some 1 ∧ (distinctTable.heap 1).hasKey = false ∧
    distinctTable.records.elems.map (fun r => r.getValue (distinctTable.heap 1).ordinal)
      = ["ABC", "XYZ"] ∧
    ∃ m t', distinctTable.sqlKey ⟨"symbol"⟩ = some (response.okResponse, t') ∧
      (t'.heap 1).key = some m ∧
      (∀ v i, m v = some i ↔
        ∃ r, distinctTable.records.elems[i]? = some r ∧
          r.getValue (distinctTable.heap 1).ordinal = v) ∧
      (t'.heap 1).name = (distinctTable.heap 1).name ∧
      (t'.heap 1).ordinal = (distinctTable.heap 1).ordinal ∧
      (∀ q, q ≠ 1 → t'.heap q = distinctTable.heap q) ∧
      t'.colMap = distinctTable.colMap ∧ t'.colSlice = distinctTable.colSlice ∧
      t'.records = distinctTable.records ∧
      t'.next = distinctTable.next ∧ t'.name = distinctTable.name :=
  ⟨rfl, rfl, rfl, sqlKey_distinct_values_attaches_index distinctTable ⟨"symbol"⟩ 1 rfl rfl
    (by decide)⟩

/-- C6. On a column that exists and already has a key index, `sqlKey` returns the
error response "key already exists" and hands back the table unchanged. -/
theorem sqlKey_existing_key_rejected (t : table) (req : sqlKeyRequest) (p : Nat)
    (hcol : t.getColumn req.column = some p) (hkey : (t.heap p).hasKey = true) :
    t.sqlKey req = some (response.errorResponse "key already exists", t) := by
  unfold table.sqlKey
  simp only [hcol, hkey, if_true]
  rfl

theorem sqlKey_existing_key_rejected_witness :
    stocksTable.getColumn "symbol" = some 1 ∧ (stocksTable.heap 1).hasKey = true ∧
    stocksTable.sqlKey ⟨"symbol"⟩ =
      some (response.errorResponse "key already exists", stocksTable) :=
  ⟨rfl, rfl, sqlKey_existing_key_rejected stocksTable ⟨"symbol"⟩ 1 rfl rfl⟩

/-- C7. On a table holding at least one record, `sqlKey` on a column name that is
not in the table returns an error response and hands back the table unchanged,
so the column is not created. -/
theorem sqlKey_absent_column_with_records_rejected (t : table) (req : sqlKeyRequest)
    (hcol : t.getColumn req.column = none) (hrec : 0 < t.getRecordCount) :
    t.sqlKey req = some (response.errorResponse
      "can not define key for non existant column due to possible duplicates", t) := by
  unfold table.getRecordCount at hrec
  unfold table.sqlKey
  simp only [hcol, gt_iff_lt, hrec, if_true]
  rfl

theorem sqlKey_absent_column_with_records_rejected_witness :
    stocksTable.getColumn "volume" = none ∧ 0 < stocksTable.getRecordCount ∧
    stocksTable.sqlKey ⟨"volume"⟩ = some (response.errorResponse
      "can not define key for non existant column due to possible duplicates", stocksTable) :=
  ⟨rfl, by decide, sqlKey_absent_column_with_records_rejected stocksTable ⟨"volume"⟩ rfl
    (by decide)⟩

/-! ## Record slots -/

theorem getValue_setValue_same (r : record) (o : Nat) (v : String) :
    (r.setValue o v).getValue o = v := by
  unfold record.setValue record.getValue
  rw [List.getD_eq_getElem?_getD, List.getElem?_set_self]
  · rfl
  · simp only [List.length_append, List.length_replicate]
    omega

theorem getValue_setValue_ne (r : record) {o o' : Nat} (v : String) (h : o' ≠ o) :
    (r.setValue o v).getValue o' = r.getValue o' := by
  unfold record.setValue record.getValue
  rw [List.getD_eq_getElem?_getD, List.getD_eq_getElem?_getD, List.getElem?_set_ne (Ne.symm h)]
  by_cases hlt : o' < r.values.length
  · rw [List.getElem?_append_left hlt]
  · rw [List.getElem?_append_right (by omega), List.getElem?_eq_none (l := r.values) (by omega)]
    by_cases h2 : o' - r.values.length < o + 1 - r.values.length
    · rw [List.getElem?_replicate_of_lt h2]
      rfl
    · rw [List.getElem?_eq_none (by simp; omega)]

theorem newRecord_getValue_zero (columns : Nat) (id : String) :
    (newRecord columns id).getValue 0 = id :=
  getValue_setValue_same _ 0 id

/-! ## The id slot -/

theorem idColumnFirst_newTable (nm : String) : IdColumnFirst (newTable nm) := by
  refine ⟨by simp [newTable, table.addColumn], fun n p h _ => ?_⟩
  simp only [newTable, table.addColumn, GoMap.set_apply, GoMap.empty] at h
  by_contra hn
  simp [hn] at h

theorem idColumnFirst_addColumn {t : table} (n : String) (h : IdColumnFirst t) :
    IdColumnFirst (t.addColumn n).1 := by
  obtain ⟨hlen, hz⟩ := h
  refine ⟨by simp [table.addColumn], fun x p hx ho => ?_⟩
  simp only [table.addColumn, GoMap.set_apply, Function.update_apply] at hx ho
  by_cases hp : p = t.next
  · rw [if_pos hp] at ho
    simp only at ho
    omega
  · rw [if_neg hp] at ho
    by_cases hxn : x = n
    · rw [if_pos hxn] at hx
      cases hx
      exact absurd rfl hp
    · rw [if_neg hxn] at hx
      exact hz x p hx ho

theorem idColumnFirst_setKey {t : table} (p : Nat) (key : Option (GoMap Nat))
    (h : IdColumnFirst t) : IdColumnFirst (t.setKey p key) := by
  obtain ⟨hlen, hz⟩ := h
  refine ⟨hlen, fun x q hx ho => hz x q hx ?_⟩
  by_cases hq : q = p
  · subst hq
    rw [setKey_heap_same] at ho
    exact ho
  · rw [setKey_heap_ne _ _ hq] at ho
    exact ho

theorem sqlInsert_idRows {t t' : table} {req : sqlInsertRequest} {r : response}
    (hb : KeysBounded t) (hid : IdColumnFirst t) (hrows : IdRows t)
    (hno : ∀ cv ∈ req.colVals, cv.col ≠ "id")
    (h : t.sqlInsert req = some (r, t')) : IdColumnFirst t' ∧ IdRows t' := by
  have hc := sqlInsertLoop_cases
    (fun rest s rec => (∀ cv ∈ rest, cv.col ≠ "id") ∧ IdColumnFirst s ∧
      rec.getValue 0 = strconvItoa t.records.elems.length ∧ s.records = t.records)
    t.records.elems.length t.colSlice.length req.colVals
    (fun cv rest s rec hP hn => ⟨fun c hc => hP.1 c (List.mem_cons_of_mem _ hc),
      idColumnFirst_addColumn _ hP.2.1, by
        rw [getValue_setValue_ne _ _ (by have := hP.2.1.1; omega)]
        exact hP.2.2.1, hP.2.2.2⟩)
    (fun cv rest s rec p hP hp _ => ⟨fun c hc => hP.1 c (List.mem_cons_of_mem _ hc),
      hP.2.1, by
        have hne : 0 ≠ (s.heap p).ordinal := fun h0 =>
          hP.1 cv (List.mem_cons_self _ _) (hP.2.1.2 _ p hp h0.symm)
        rw [getValue_setValue_ne _ _ hne]
        exact hP.2.2.1, hP.2.2.2⟩)
    (fun cv rest s rec p m hP hp _ _ => ⟨fun c hc => hP.1 c (List.mem_cons_of_mem _ hc),
      idColumnFirst_setKey _ _ hP.2.1, by
        have hne : 0 ≠ (s.heap p).ordinal := fun h0 =>
          hP.1 cv (List.mem_cons_self _ _) (hP.2.1.2 _ p hp h0.symm)
        rw [getValue_setValue_ne _ _ hne]
        exact hP.2.2.1, hP.2.2.2⟩)
    req.colVals t t.newRecord.1 [] r t'
    ⟨hno, hid, newRecord_getValue_zero _ _, rfl⟩ h
  rcases hc with ⟨e, rfl⟩ | ⟨tf, rf, ⟨_, hid', hrf, hrec⟩, _, rfl⟩
  · rw [sqlInsert_error_eq hb h]
    exact ⟨hid, hrows⟩
  · refine ⟨hid', fun n r hr => ?_⟩
    have hr' : (t.records.elems ++ [rf])[n]? = some r := by
      have : (tf.addNewRecord rf).records.elems = t.records.elems ++ [rf] := by
        show (addRecordToSlice tf.records rf).elems = _
        rw [addRecordToSlice_elems, hrec]
      rw [← this]
      exact hr
    by_cases hlt : n < t.records.elems.length
    · rw [List.getElem?_append_left hlt] at hr'
      exact hrows n r hr'
    · have hn := getElem?_lt_length hr'
      simp only [List.length_append, List.length_singleton] at hn
      have hnl : n = t.records.elems.length := by omega
      subst hnl
      simp only [List.getElem?_concat_length, Option.some.injEq] at hr'
      subst hr'
      exact hrf

theorem sqlKey_idRows {t t' : table} {req : sqlKeyRequest} {r : response}
    (hid : IdColumnFirst t) (hrows : IdRows t) (h : t.sqlKey req = some (r, t')) :
    IdColumnFirst t' ∧ IdRows t' := by
  rcases sqlKey_cases h with ⟨_, rfl⟩ | ⟨p, m, _, _, _, _, rfl⟩
  · exact ⟨hid, hrows⟩
  · exact ⟨idColumnFirst_setKey _ _ hid, hrows⟩

theorem runOps_idRows :
    ∀ (ops : List Op) (t t' : table), NoIdPair ops → KeysBounded t → Registry t →
      IdColumnFirst t → IdRows t → runOps ops t = some t' → IdRows t' := by
  intro ops
  induction ops with
  | nil =>
    intro t t' _ _ _ _ hrows h
    simp only [runOps, Option.some.injEq] at h
    subst h
    exact hrows
  | cons op ops ih =>
    intro t t' hno hb hreg hid hrows h
    unfold runOps at h
    cases hs : step t op with
    | none => simp [hs] at h
    | some r =>
      simp only [hs] at h
      obtain ⟨hb', hreg'⟩ := @step_inv t r.2 op r.1 hb hreg hs
      have hno' : NoIdPair ops := fun req hreq => hno req (List.mem_cons_of_mem _ hreq)
      have hstep : IdColumnFirst r.2 ∧ IdRows r.2 := by
        cases op with
        | key req => exact sqlKey_idRows hid hrows hs
        | insert req =>
          exact sqlInsert_idRows hb hid hrows (hno req (List.mem_cons_self _ _)) hs
        | select req => rw [sqlSelect_eq hs]; exact ⟨hid, hrows⟩
      exact ih _ _ hno' hb' hreg' hstep.1 hstep.2 h

/-- C10, counterexample. A single insert with the pair (id, 7) on a new table
returns, and the record it stores at position 0 holds "7" at ordinal 0, not the
decimal string of 0: the table reached by insert calls alone violates `IdRows`. -/
theorem record_id_overwritten :
    (∀ op ∈ idOps, ∃ req, op = Op.insert req) ∧
    runOps idOps (newTable "stocks") = some idTable ∧
    idTable.records.elems[0]? = some ⟨["7"]⟩ ∧
    ¬ IdRows idTable := by
  refine ⟨by simp [idOps], rfl, rfl, fun h => ?_⟩
  have h0 := h 0 ⟨["7"]⟩ rfl
  revert h0
  decide

/-- C10, amended. In every table reachable from `newTable` by calls that each
returned and in which no insert pair names the column "id", the record stored at
position n holds the decimal string of n at ordinal 0. -/
theorem record_id_is_position (nm : String) (ops : List Op) (t : table)
    (hno : NoIdPair ops) (hreach : runOps ops (newTable nm) = some t) : IdRows t :=
  runOps_idRows ops _ t hno (keysBounded_newTable nm) (registry_newTable nm)
    (idColumnFirst_newTable nm) (fun n r h => by simp [newTable, table.addColumn] at h)
    hreach

theorem record_id_is_position_witness :
    NoIdPair stocksOps ∧ runOps stocksOps (newTable "stocks") = some stocksTable ∧
    IdRows stocksTable :=
  ⟨by simp [NoIdPair, stocksOps], rfl,
    record_id_is_position "stocks" stocksOps stocksTable
      (by simp [NoIdPair, stocksOps]) rfl⟩

/-! ## Key index soundness -/

theorem registry_ordinal_inj {t : table} (h : Registry t) {n n' : String} {p q : Nat}
    (hp : t.colMap n = some p) (hq : t.colMap n' = some q)
    (ho : (t.heap p).ordinal = (t.heap q).ordinal) : p = q := by
  have h1 := (h.1 n p hp).2.2
  have h2 := (h.1 n' q hq).2.2
  rw [ho, h2] at h1
  exact (Option.some.inj h1).symm

theorem registry_ordinal_lt {t : table} (h : Registry t) {n : String} {p : Nat}
    (hp : t.colMap n = some p) : (t.heap p).ordinal < t.colSlice.length :=
  getElem?_lt_length (h.1 n p hp).2.2

theorem addColumn_heap_of_key {t : table} {n : String} {p : Nat} {m : GoMap Nat}
    (h : ((t.addColumn n).1.heap p).key = some m) :
    p ≠ t.next ∧ (t.addColumn n).1.heap p = t.heap p := by
  have hp : p ≠ t.next := by
    intro hp
    subst hp
    rw [addColumn_heap_next] at h
    cases h
  refine ⟨hp, ?_⟩
  simp only [table.addColumn]
  exact Function.update_noteq hp _ _

theorem soundDuring_new {T s : table} {rec : record} {cv : columnValue}
    {rest : List columnValue} (hreg : Registry s) (h : SoundDuring T (cv :: rest) s rec) :
    SoundDuring T rest (s.addColumn cv.col).1 (rec.setValue s.colSlice.length cv.val) := by
  intro p m v i hm hv
  obtain ⟨_, heq⟩ := addColumn_heap_of_key hm
  rw [heq] at hm ⊢
  rcases h p m v i hm hv with h1 | ⟨hi, hval, hrest⟩
  · exact Or.inl h1
  · refine Or.inr ⟨hi, ?_, fun c hc => hrest c (List.mem_cons_of_mem _ hc)⟩
    have hlt := registry_ordinal_lt hreg (hreg.2.2 p m hm)
    rw [getValue_setValue_ne _ _ (by omega)]
    exact hval

theorem soundDuring_nokey {T s : table} {rec : record} {cv : columnValue}
    {rest : List columnValue} {q : Nat} (hreg : Registry s)
    (h : SoundDuring T (cv :: rest) s rec) (hq : s.colMap cv.col = some q)
    (hk : (s.heap q).key = none) :
    SoundDuring T rest s (rec.setValue (s.heap q).ordinal cv.val) := by
  intro p m v i hm hv
  rcases h p m v i hm hv with h1 | ⟨hi, hval, hrest⟩
  · exact Or.inl h1
  · refine Or.inr ⟨hi, ?_, fun c hc => hrest c (List.mem_cons_of_mem _ hc)⟩
    have hne : (s.heap p).ordinal ≠ (s.heap q).ordinal := by
      intro ho
      have := registry_ordinal_inj hreg (hreg.2.2 p m hm) hq ho
      subst this
      rw [hk] at hm
      cases hm
    rw [getValue_setValue_ne _ _ hne]
    exact hval

theorem soundDuring_key {T s : table} {rec : record} {cv : columnValue}
    {rest : List columnValue} {q : Nat} {key : GoMap Nat} (hreg : Registry s)
    (hnd : ∀ c ∈ rest, c.col ≠ cv.col)
    (h : SoundDuring T (cv :: rest) s rec) (hq : s.colMap cv.col = some q)
    (hk : (s.heap q).key = some key) :
    SoundDuring T rest (s.setKey q (some (key.set cv.val T.records.elems.length)))
      (rec.setValue (s.heap q).ordinal cv.val) := by
  have hname : (s.heap q).name = cv.col := (hreg.1 _ q hq).1
  intro p m v i hm hv
  by_cases hpq : p = q
  · subst hpq
    rw [setKey_heap_same] at hm ⊢
    simp only [Option.some.injEq] at hm
    subst hm
    simp only
    rw [GoMap.set_apply] at hv
    by_cases hvv : v = cv.val
    · rw [if_pos hvv] at hv
      cases hv
      refine Or.inr ⟨rfl, ?_, fun c hc => ?_⟩
      · rw [getValue_setValue_same, hvv]
      · rw [hname]; exact hnd c hc
    · rw [if_neg hvv] at hv
      rcases h p key v i hk hv with h1 | ⟨_, _, hrest⟩
      · exact Or.inl h1
      · exact absurd hname.symm (hrest cv (List.mem_cons_self _ _))
  · rw [setKey_heap_ne _ _ hpq] at hm ⊢
    rcases h p m v i hm hv with h1 | ⟨hi, hval, hrest⟩
    · exact Or.inl h1
    · refine Or.inr ⟨hi, ?_, fun c hc => hrest c (List.mem_cons_of_mem _ hc)⟩
      have hne : (s.heap p).ordinal ≠ (s.heap q).ordinal := fun ho =>
        hpq (registry_ordinal_inj hreg (hreg.2.2 p m hm) hq ho)
      rw [getValue_setValue_ne _ _ hne]
      exact hval

theorem sqlInsert_keySound {t t' : table} {req : sqlInsertRequest} {r : response}
    (hb : KeysBounded t) (hreg : Registry t) (hs : KeySound t)
    (hnd : (req.colVals.map columnValue.col).Nodup)
    (h : t.sqlInsert req = some (r, t')) : KeySound t' := by
  have hc := sqlInsertLoop_cases
    (fun rest s rec => Registry s ∧ s.records = t.records ∧
      (rest.map columnValue.col).Nodup ∧ SoundDuring t rest s rec)
    t.records.elems.length t.colSlice.length req.colVals
    (fun cv rest s rec hP hn => ⟨registry_addColumn hP.1 hn, hP.2.1,
      (List.nodup_cons.1 hP.2.2.1).2, soundDuring_new hP.1 hP.2.2.2⟩)
    (fun cv rest s rec p hP hp hk => ⟨hP.1, hP.2.1,
      (List.nodup_cons.1 hP.2.2.1).2, soundDuring_nokey hP.1 hP.2.2.2 hp hk⟩)
    (fun cv rest s rec p m hP hp hk _ => ⟨
      registry_setKey _ hP.1 (by rw [(hP.1.1 _ p hp).1]; exact hp), hP.2.1,
      (List.nodup_cons.1 hP.2.2.1).2,
      soundDuring_key hP.1 (fun c hc heq => (List.nodup_cons.1 hP.2.2.1).1
        (heq ▸ List.mem_map_of_mem columnValue.col hc)) hP.2.2.2 hp hk⟩)
    req.colVals t t.newRecord.1 [] r t'
    ⟨hreg, rfl, hnd, fun p m v i hm hv => Or.inl (hs p m v i hm hv)⟩ h
  rcases hc with ⟨e, rfl⟩ | ⟨tf, rf, ⟨_, hrec, _, hsd⟩, _, rfl⟩
  · rw [sqlInsert_error_eq hb h]
    exact hs
  · intro p m v i hm hv
    have hel : (tf.addNewRecord rf).records.elems = t.records.elems ++ [rf] := by
      show (addRecordToSlice tf.records rf).elems = _
      rw [addRecordToSlice_elems, hrec]
    rw [hel]
    rcases hsd p m v i hm hv with ⟨r0, hr0, hval⟩ | ⟨hi, hval, _⟩
    · exact ⟨r0, by rw [List.getElem?_append_left (getElem?_lt_length hr0)]; exact hr0, hval⟩
    · exact ⟨rf, by rw [hi]; simp, hval⟩

theorem sqlKey_keySound {t t' : table} {req : sqlKeyRequest} {r : response}
    (hs : KeySound t) (h : t.sqlKey req = some (r, t')) : KeySound t' := by
  rcases sqlKey_cases h with ⟨_, rfl⟩ | ⟨p, m, _, _, hm, _, rfl⟩
  · exact hs
  · intro q m' v i hq hv
    by_cases hqp : q = p
    · subst hqp
      rw [setKey_heap_same] at hq ⊢
      simp only [Option.some.injEq] at hq
      subst hq
      rcases sqlKeyScan_sound _ _ _ _ hm v i hv with h1 | ⟨_, r', hr', hval⟩
      · simp [GoMap.empty] at h1
      · exact ⟨r', by simpa using hr', hval⟩
    · rw [setKey_heap_ne _ _ hqp] at hq ⊢
      exact hs q m' v i hq hv

theorem runOps_keySound :
    ∀ (ops : List Op) (t t' : table), DistinctColumns ops → KeysBounded t → Registry t →
      KeySound t → runOps ops t = some t' → KeySound t' := by
  intro ops
  induction ops with
  | nil =>
    intro t t' _ _ _ hs h
    simp only [runOps, Option.some.injEq] at h
    subst h
    exact hs
  | cons op ops ih =>
    intro t t' hd hb hreg hs h
    unfold runOps at h
    cases hst : step t op with
    | none => simp [hst] at h
    | some r =>
      simp only [hst] at h
      obtain ⟨hb', hreg'⟩ := @step_inv t r.2 op r.1 hb hreg hst
      have hd' : DistinctColumns ops := fun req hreq => hd req (List.mem_cons_of_mem _ hreq)
      have hstep : KeySound r.2 := by
        cases op with
        | key req => exact sqlKey_keySound hs hst
        | insert req => exact sqlInsert_keySound hb hreg hs (hd req (List.mem_cons_self _ _)) hst
        | select req => rw [sqlSelect_eq hst]; exact hs
      exact ih _ _ hd' hb' hreg' hstep h

/-- C9, counterexample. After a key is defined on `symbol`, an insert that names
`symbol` twice (values X, then Y) returns and leaves the entry X -> 1 in the key
index, while the record at position 1 holds Y at the ordinal of `symbol`: the
table reached by key and insert calls alone violates `KeySound`. -/
theorem key_entry_for_overwritten_value :
    (∀ op ∈ overwriteOps, ∀ req, op ≠ Op.select req) ∧
    runOps overwriteOps (newTable "stocks") = some overwriteTable ∧
    overwriteTable.getColumn "symbol" = some 1 ∧
    (overwriteTable.heap 1).key.bind (fun m => m "X") = some 1 ∧
    overwriteTable.records.elems[1]? = some ⟨["1", "Y"]⟩ ∧
    ¬ KeySound overwriteTable := by
  refine ⟨by simp [overwriteOps], rfl, rfl, rfl, rfl, fun h => ?_⟩
  obtain ⟨r, hr, hv⟩ := h 1 (((overwriteTable.heap 1).key).getD GoMap.empty) "X" 1 rfl rfl
  have hr' : r = ⟨["1", "Y"]⟩ := (Option.some.inj hr).symm
  subst hr'
  revert hv
  decide

/-- C9, amended. In every table reachable from `newTable` by calls that each
returned and in which every insert names each column at most once, every entry
(v -> i) of every column's key index satisfies: i is a valid record position and
the record at position i holds v at the column's ordinal. Both predicates range
over all column objects, hence over every column of the table. -/
theorem key_index_sound (nm : String) (ops : List Op) (t : table)
    (hd : DistinctColumns ops) (hreach : runOps ops (newTable nm) = some t) :
    KeysBounded t ∧ KeySound t :=
  ⟨(reachable_inv hreach).1,
    runOps_keySound ops _ t hd (keysBounded_newTable nm) (registry_newTable nm)
      (fun q m' v' i' hq _ => by
        simp only [newTable, table.addColumn, Function.update_apply] at hq
        split_ifs at hq) hreach⟩

theorem key_index_sound_witness :
    DistinctColumns stocksOps ∧ runOps stocksOps (newTable "stocks") = some stocksTable ∧
    KeysBounded stocksTable ∧ KeySound stocksTable :=
  ⟨by simp [DistinctColumns, stocksOps], rfl,
    key_index_sound "stocks" stocksOps stocksTable
      (by simp [DistinctColumns, stocksOps]) rfl⟩

/-! ## Key uniqueness -/

theorem keyUnique_of_complete {t : table} (h : KeyComplete t) : KeyUnique t := by
  intro p hk i j ri rj hij hi hj heq
  unfold column.hasKey at hk
  cases hm : (t.heap p).key with
  | none => simp [hm] at hk
  | some m =>
    have h1 := h p m hm i ri hi
    have h2 := h p m hm j rj hj
    rw [heq, h2] at h1
    exact hij (Option.some.inj h1).symm

theorem completeDuring_new {T s : table} {rec : record} {cv : columnValue}
    {rest : List columnValue} (hreg : Registry s) (h : CompleteDuring T (cv :: rest) s rec)
    (hn : s.colMap cv.col = none) :
    CompleteDuring T rest (s.addColumn cv.col).1 (rec.setValue s.colSlice.length cv.val) := by
  intro p m hm
  obtain ⟨_, heq⟩ := addColumn_heap_of_key hm
  rw [heq] at hm ⊢
  obtain ⟨h1, h2⟩ := h p m hm
  refine ⟨h1, ?_⟩
  have hregd := hreg.2.2 p m hm
  rcases h2 with hl | ⟨c, hc, hcn⟩
  · left
    have hlt := registry_ordinal_lt hreg hregd
    rw [getValue_setValue_ne _ _ (by omega)]
    exact hl
  · right
    rcases List.mem_cons.1 hc with rfl | hin
    · rw [← hcn, hn] at hregd
      cases hregd
    · exact ⟨c, hin, hcn⟩

theorem completeDuring_nokey {T s : table} {rec : record} {cv : columnValue}
    {rest : List columnValue} {q : Nat} (hreg : Registry s)
    (h : CompleteDuring T (cv :: rest) s rec) (hq : s.colMap cv.col = some q)
    (hk : (s.heap q).key = none) :
    CompleteDuring T rest s (rec.setValue (s.heap q).ordinal cv.val) := by
  intro p m hm
  obtain ⟨h1, h2⟩ := h p m hm
  refine ⟨h1, ?_⟩
  have hregd := hreg.2.2 p m hm
  have hpq : p ≠ q := by
    intro hpq
    subst hpq
    rw [hk] at hm
    cases hm
  rcases h2 with hl | ⟨c, hc, hcn⟩
  · left
    have hne : (s.heap p).ordinal ≠ (s.heap q).ordinal := fun ho =>
      hpq (registry_ordinal_inj hreg hregd hq ho)
    rw [getValue_setValue_ne _ _ hne]
    exact hl
  · right
    rcases List.mem_cons.1 hc with rfl | hin
    · rw [← hcn, hq] at hregd
      exact absurd (Option.some.inj hregd).symm hpq
    · exact ⟨c, hin, hcn⟩

theorem completeDuring_key {T s : table} {rec : record} {cv : columnValue}
    {rest : List columnValue} {q : Nat} {key : GoMap Nat} (hreg : Registry s)
    (h : CompleteDuring T (cv :: rest) s rec) (hq : s.colMap cv.col = some q)
    (hk : (s.heap q).key = some key) (habs : key cv.val = none) :
    CompleteDuring T rest (s.setKey q (some (key.set cv.val T.records.elems.length)))
      (rec.setValue (s.heap q).ordinal cv.val) := by
  intro p m hm
  by_cases hpq : p = q
  · subst hpq
    rw [setKey_heap_same] at hm ⊢
    simp only [Option.some.injEq] at hm
    subst hm
    simp only
    obtain ⟨h1, _⟩ := h p key hk
    refine ⟨fun i r hr => ?_, Or.inl ?_⟩
    · have := h1 i r hr
      rw [GoMap.set_apply]
      by_cases hv : r.getValue (s.heap p).ordinal = cv.val
      · rw [hv, habs] at this
        cases this
      · rw [if_neg hv]
        exact this
    · rw [getValue_setValue_same, GoMap.set_apply, if_pos rfl]
  · rw [setKey_heap_ne _ _ hpq] at hm ⊢
    obtain ⟨h1, h2⟩ := h p m hm
    refine ⟨h1, ?_⟩
    have hregd := hreg.2.2 p m hm
    rcases h2 with hl | ⟨c, hc, hcn⟩
    · left
      have hne : (s.heap p).ordinal ≠ (s.heap q).ordinal := fun ho =>
        hpq (registry_ordinal_inj hreg hregd hq ho)
      rw [getValue_setValue_ne _ _ hne]
      exact hl
    · right
      rcases List.mem_cons.1 hc with rfl | hin
      · rw [← hcn, hq] at hregd
        exact absurd (Option.some.inj hregd).symm hpq
      · exact ⟨c, hin, hcn⟩

theorem sqlInsert_keyComplete {t t' : table} {req : sqlInsertRequest} {r : response}
    (hb : KeysBounded t) (hreg : Registry t) (hcpl : KeyComplete t)
    (hsup : suppliesKeys t (Op.insert req) = true)
    (h : t.sqlInsert req = some (r, t')) : KeyComplete t' := by
  have hinit : CompleteDuring t req.colVals t t.newRecord.1 := by
    intro p m hm
    refine ⟨hcpl p m hm, Or.inr ?_⟩
    have hregd := hreg.2.2 p m hm
    have hmem : p ∈ t.colSlice := List.getElem?_mem (hreg.1 _ p hregd).2.2
    simp only [suppliesKeys, List.all_eq_true, Bool.or_eq_true, Bool.not_eq_true',
      List.any_eq_true, beq_iff_eq] at hsup
    rcases hsup p hmem with hno | hex
    · simp [column.hasKey, hm] at hno
    · exact hex
  have hc := sqlInsertLoop_cases
    (fun rest s rec => Registry s ∧ s.records = t.records ∧ CompleteDuring t rest s rec)
    t.records.elems.length t.colSlice.length req.colVals
    (fun cv rest s rec hP hn => ⟨registry_addColumn hP.1 hn, hP.2.1,
      completeDuring_new hP.1 hP.2.2 hn⟩)
    (fun cv rest s rec p hP hp hk => ⟨hP.1, hP.2.1, completeDuring_nokey hP.1 hP.2.2 hp hk⟩)
    (fun cv rest s rec p m hP hp hk habs => ⟨
      registry_setKey _ hP.1 (by rw [(hP.1.1 _ p hp).1]; exact hp), hP.2.1,
      completeDuring_key hP.1 hP.2.2 hp hk habs⟩)
    req.colVals t t.newRecord.1 [] r t' ⟨hreg, rfl, hinit⟩ h
  rcases hc with ⟨e, rfl⟩ | ⟨tf, rf, ⟨_, hrec, hcd⟩, _, rfl⟩
  · rw [sqlInsert_error_eq hb h]
    exact hcpl
  · intro p m hm i r0 hr0
    have hel : (tf.addNewRecord rf).records.elems = t.records.elems ++ [rf] := by
      show (addRecordToSlice tf.records rf).elems = _
      rw [addRecordToSlice_elems, hrec]
    rw [hel] at hr0
    obtain ⟨h1, h2⟩ := hcd p m hm
    by_cases hlt : i < t.records.elems.length
    · rw [List.getElem?_append_left hlt] at hr0
      exact h1 i r0 hr0
    · have hn := getElem?_lt_length hr0
      simp only [List.length_append, List.length_singleton] at hn
      have hil : i = t.records.elems.length := by omega
      subst hil
      simp only [List.getElem?_concat_length, Option.some.injEq] at hr0
      subst hr0
      rcases h2 with hl | ⟨c, hc, _⟩
      · exact hl
      · simp at hc

theorem sqlKey_keyComplete {t t' : table} {req : sqlKeyRequest} {r : response}
    (hcpl : KeyComplete t) (hsup : suppliesKeys t (Op.key req) = true)
    (h : t.sqlKey req = some (r, t')) : KeyComplete t' := by
  rcases sqlKey_cases h with ⟨_, rfl⟩ | ⟨p, m, hp, hk, hm, _, rfl⟩
  · exact hcpl
  · intro q m' hq i r0 hr0
    by_cases hqp : q = p
    · subst hqp
      rw [setKey_heap_same] at hq ⊢
      simp only [Option.some.injEq] at hq
      subst hq
      simp only [suppliesKeys, table.getColumn, hp, column.hasKey, hk, Option.isSome_none,
        Bool.false_or, decide_eq_true_eq] at hsup
      have := sqlKeyScan_complete _ _ _ _ hm hsup i r0 hr0
      simpa using this
    · rw [setKey_heap_ne _ _ hqp] at hq ⊢
      exact hcpl q m' hq i r0 hr0

theorem runOps_keyComplete :
    ∀ (ops : List Op) (t t' : table), suppliesKeysRun ops t = true → KeysBounded t →
      Registry t → KeyComplete t → runOps ops t = some t' → KeyComplete t' := by
  intro ops
  induction ops with
  | nil =>
    intro t t' _ _ _ hs h
    simp only [runOps, Option.some.injEq] at h
    subst h
    exact hs
  | cons op ops ih =>
    intro t t' hsup hb hreg hs h
    unfold runOps at h
    unfold suppliesKeysRun at hsup
    cases hst : step t op with
    | none => simp [hst] at h
    | some r =>
      simp only [hst, Bool.and_eq_true] at h hsup
      obtain ⟨hb', hreg'⟩ := @step_inv t r.2 op r.1 hb hreg hst
      have hstep : KeyComplete r.2 := by
        cases op with
        | key req => exact sqlKey_keyComplete hs hsup.1 hst
        | insert req => exact sqlInsert_keyComplete hb hreg hs hsup.1 hst
        | select req => rw [sqlSelect_eq hst]; exact hs
      exact ih _ _ hsup.2 hb' hreg' hstep h

/-- C8, counterexample. After a key is defined on `symbol`, two inserts that do
not name `symbol` both return, and the records at positions 1 and 2 hold the
same (default) value at the ordinal of the keyed column `symbol`: the table
reached by key and insert calls alone violates `KeyUnique`. -/
theorem unsupplied_key_column_repeats :
    (∀ op ∈ unsuppliedOps, ∀ req, op ≠ Op.select req) ∧
    runOps unsuppliedOps (newTable "stocks") = some unsuppliedTable ∧
    unsuppliedTable.getColumn "symbol" = some 1 ∧
    (unsuppliedTable.heap 1).hasKey = true ∧
    unsuppliedTable.records.elems[1]? = some ⟨["1", "", "1"]⟩ ∧
    unsuppliedTable.records.elems[2]? = some ⟨["2", "", "2"]⟩ ∧
    ¬ KeyUnique unsuppliedTable := by
  refine ⟨by simp [unsuppliedOps], rfl, rfl, rfl, rfl, rfl, fun h => ?_⟩
  exact h 1 rfl 1 2 ⟨["1", "", "1"]⟩ ⟨["2", "", "2"]⟩ (by decide) rfl rfl rfl

/-- C8, amended. In every table reachable from `newTable` by calls that each
returned, where every key definition on an existing unkeyed column was made
while that column's stored values were pairwise distinct and every insert named
every column that had a key index, two distinct stored records never hold the
same value at the ordinal of a column with a key index. `KeyUnique` ranges over
all column objects, hence over every column of the table. -/
theorem key_values_unique (nm : String) (ops : List Op) (t : table)
    (hsup : suppliesKeysRun ops (newTable nm) = true)
    (hreach : runOps ops (newTable nm) = some t) : KeyUnique t :=
  keyUnique_of_complete (runOps_keyComplete ops _ t hsup (keysBounded_newTable nm)
    (registry_newTable nm) (fun q m hq i r hr => by
      simp [newTable, table.addColumn] at hr) hreach)

theorem key_values_unique_witness :
    suppliesKeysRun suppliedOps (newTable "stocks") = true ∧
    runOps suppliedOps (newTable "stocks") = some suppliedTable ∧
    (suppliedTable.heap 1).hasKey = true ∧
    suppliedTable.records.elems = [⟨["0", "ABC"]⟩, ⟨["1", "XYZ", "5"]⟩] ∧
    KeyUnique suppliedTable :=
  ⟨rfl, rfl, rfl, rfl, key_values_unique "stocks" suppliedOps suppliedTable rfl rfl⟩

/-! ## The record store -/

/-- For an id that is not negative, `getRecord` returns the record at that
position when the id is below the record count, and nil otherwise. -/
theorem getRecord_nonneg (t : table) (id : Int) (h : 0 ≤ id) :
    t.getRecord id = some (t.records.elems[id.toNat]?) := by
  unfold table.getRecord
  by_cases hlt : (t.records.elems.length : Int) > id
  · rw [if_pos hlt, if_neg (by omega)]
  · rw [if_neg hlt]
    have : t.records.elems.length ≤ id.toNat := by omega
    rw [List.getElem?_eq_none this]

/-- C12, at the failing input. On the reachable table `stocksTable`, which holds
one record, `getRecord(-1)` does not return nil: the guard `len(t.records) > id`
lets a negative id through to `t.records[id]`, which panics. -/
theorem getRecord_negative_panics :
    runOps stocksOps (newTable "stocks") = some stocksTable ∧
    stocksTable.getRecordCount = 1 ∧
    stocksTable.getRecord (-1) = none :=
  ⟨rfl, rfl, rfl⟩

/-- C13. Growth transparency: whatever the capacity of the backing array,
`addRecordToSlice` yields the sequence followed by the record: the length grows
by one, every earlier element keeps its position and value, and the record is
last. -/
theorem addRecordToSlice_appends (rs : Slice record) (r : record) :
    (addRecordToSlice rs r).elems = rs.elems ++ [r] ∧
    (addRecordToSlice rs r).elems.length = rs.elems.length + 1 ∧
    (∀ i, i < rs.elems.length → (addRecordToSlice rs r).elems[i]? = rs.elems[i]?) ∧
    (addRecordToSlice rs r).elems[rs.elems.length]? = some r := by
  rw [addRecordToSlice_elems]
  refine ⟨rfl, by simp, fun i hi => List.getElem?_append_left hi, by simp⟩

/-! ## Select -/

theorem foldl_copyRecordData (recs acc : List record) :
    recs.foldl copyRecordData acc = acc ++ recs := by
  induction recs generalizing acc with
  | nil => simp
  | cons r rest ih =>
    rw [List.foldl_cons, ih]
    simp [copyRecordData]

/-- C16. `sqlSelect` always returns and hands back the table unchanged; the
response is an error response exactly when the request's filter column is not
empty, and otherwise a select response whose column sequence is the table's
column sequence (with value copies of the stored records). -/
theorem sqlSelect_contract (t : table) (req : sqlSelectRequest) :
    ∃ r, t.sqlSelect req = some (r, t) ∧
      (r.isError = true ↔ req.filter.col ≠ "") ∧
      (req.filter.col ≠ "" → r = response.errorResponse "filters are not supported ") ∧
      (req.filter.col = "" → r = response.sqlSelectResponse t.colSlice t.records.elems) := by
  unfold table.sqlSelect
  by_cases h : req.filter.col = ""
  · refine ⟨response.sqlSelectResponse t.colSlice t.records.elems, ?_, ?_, ?_, fun _ => rfl⟩
    · rw [if_neg (by simpa using h), foldl_copyRecordData]
      rfl
    · simp [response.isError, h]
    · intro hne; exact absurd h hne
  · refine ⟨response.errorResponse "filters are not supported ", ?_, ?_, fun _ => rfl, ?_⟩
    · rw [if_pos h]
      rfl
    · simp [response.isError, h]
    · intro he; exact absurd he h

/-! ## Key targets -/

/-- C19. Key targets are committed identifiers: in every table reachable from
`newTable` by calls that each returned a response, every entry (v -> i) of every
column's key index has i below the record count; in particular no entry targets
the id the next provisional record would get. -/
theorem key_targets_committed (nm : String) (ops : List Op) (t : table) (p : Nat)
    (m : GoMap Nat) (v : String) (i : Nat)
    (hreach : runOps ops (newTable nm) = some t)
    (hkey : (t.heap p).key = some m) (hentry : m v = some i) :
    i < t.getRecordCount ∧ i ≠ t.newRecord.2 := by
  have h := (reachable_inv hreach).1 p m v i hkey hentry
  refine ⟨h, ?_⟩
  show i ≠ t.records.elems.length
  omega

theorem key_targets_committed_witness :
    runOps stocksOps (newTable "stocks") = some stocksTable ∧
    (stocksTable.heap 1).key = some ((GoMap.empty : GoMap Nat).set "ABC" 0) ∧
    ((GoMap.empty : GoMap Nat).set "ABC" 0) "ABC" = some 0 ∧
    0 < stocksTable.getRecordCount ∧ 0 ≠ stocksTable.newRecord.2 :=
  ⟨rfl, rfl, rfl,
    key_targets_committed "stocks" stocksOps stocksTable 1 _ "ABC" 0 rfl rfl rfl⟩

/-! ## Inserts on tables without keys -/

theorem sqlInsertLoop_nokeys (id len : Nat) (all : List columnValue) :
    ∀ (rest : List columnValue) (s : table) (rec : record) (nc : List String),
      (∀ n p, s.colMap n = some p → (s.heap p).key = none) →
      ∃ (rf : record) (tf : table), sqlInsertLoop id len all rest s rec nc =
          some (response.sqlInsertResponse rf.getId, tf.addNewRecord rf) ∧
        tf.records = s.records := by
  intro rest
  induction rest with
  | nil =>
    intro s rec nc _
    exact ⟨rec, s, rfl, rfl⟩
  | cons cv rest ih =>
    intro s rec nc hno
    unfold sqlInsertLoop
    cases hp : s.colMap cv.col with
    | none =>
      simp only [table.getAddColumn, hp, Bool.not_true, Bool.false_and, if_true]
      have hk : ((s.addColumn cv.col).1.heap (s.addColumn cv.col).2).key = none :=
        addColumn_heap_next s cv.col
      simp only [hk]
      have hno' : ∀ n p, (s.addColumn cv.col).1.colMap n = some p →
          ((s.addColumn cv.col).1.heap p).key = none := by
        intro n p hn
        simp only [table.addColumn, GoMap.set_apply, Function.update_apply] at hn ⊢
        by_cases hpn : p = s.next
        · rw [if_pos hpn]
        · rw [if_neg hpn]
          by_cases hnc : n = cv.col
          · rw [if_pos hnc] at hn
            cases hn
            exact absurd rfl hpn
          · rw [if_neg hnc] at hn
            exact hno n p hn
      obtain ⟨rf, tf, h1, h2⟩ := ih (s.addColumn cv.col).1
        (rec.setValue ((s.addColumn cv.col).1.heap (s.addColumn cv.col).2).ordinal cv.val)
        (nc ++ [cv.col]) hno'
      exact ⟨rf, tf, h1, h2⟩
    | some p =>
      have hk := hno _ p hp
      simp only [table.getAddColumn, hp, Bool.not_false, Bool.true_and, column.hasKey, hk,
        Option.isSome_none, Bool.false_and, Bool.false_eq_true, if_false]
      exact ih s _ nc hno

/-- C20. On a table in which no column has a key index, `sqlInsert` returns a
success response for every request, and the record count grows by exactly one. -/
theorem sqlInsert_without_keys_succeeds (t : table) (req : sqlInsertRequest)
    (hnokey : ∀ n p, t.getColumn n = some p → (t.heap p).hasKey = false) :
    ∃ id t', t.sqlInsert req = some (response.sqlInsertResponse id, t') ∧
      t'.getRecordCount = t.getRecordCount + 1 := by
  have hno : ∀ n p, t.colMap n = some p → (t.heap p).key = none := by
    intro n p hn
    have := hnokey n p (by simp [table.getColumn, hn])
    unfold column.hasKey at this
    cases hk : (t.heap p).key with
    | none => rfl
    | some m => simp [hk] at this
  obtain ⟨rf, tf, h1, h2⟩ := sqlInsertLoop_nokeys t.newRecord.2 t.colSlice.length req.colVals
    req.colVals t t.newRecord.1 [] hno
  refine ⟨rf.getId, tf.addNewRecord rf, h1, ?_⟩
  show (addRecordToSlice tf.records rf).elems.length = t.records.elems.length + 1
  rw [addRecordToSlice_elems, h2]
  simp

theorem sqlInsert_without_keys_succeeds_witness :
    (∀ n p, (newTable "stocks").getColumn n = some p →
      ((newTable "stocks").heap p).hasKey = false) ∧
    ∃ id t', (newTable "stocks").sqlInsert ⟨[⟨"symbol", "ABC"⟩, ⟨"symbol", "XYZ"⟩]⟩ =
        some (response.sqlInsertResponse id, t') ∧
      t'.getRecordCount = (newTable "stocks").getRecordCount + 1 :=
  have h : ∀ n p, (newTable "stocks").getColumn n = some p →
      ((newTable "stocks").heap p).hasKey = false := by
    intro n p _
    simp only [newTable, table.addColumn, Function.update_apply, column.hasKey]
    split_ifs <;> rfl
  ⟨h, sqlInsert_without_keys_succeeds (newTable "stocks") _ h⟩

/-! ## Sequences of `getAddColumn` -/

theorem mem_firstOccurrences (l : List String) (x : String) :
    x ∈ firstOccurrences l ↔ x ∈ l := by
  induction l with
  | nil => simp [firstOccurrences]
  | cons n l ih =>
    simp only [firstOccurrences, List.mem_cons, List.mem_filter, ih, decide_eq_true_eq]
    by_cases h : x = n
    · simp [h]
    · simp [h]

theorem nodup_firstOccurrences (l : List String) : (firstOccurrences l).Nodup := by
  induction l with
  | nil => simp [firstOccurrences]
  | cons n l ih =>
    simp only [firstOccurrences, List.nodup_cons, List.mem_filter, decide_eq_true_eq]
    exact ⟨fun h => h.2 rfl, ih.filter _⟩

theorem length_firstOccurrences (l : List String) :
    (firstOccurrences l).length = l.toFinset.card := by
  rw [← List.toFinset_card_of_nodup (nodup_firstOccurrences l)]
  congr 1
  ext x
  simp [mem_firstOccurrences]

theorem getColumn_eq_colMap (t : table) (n : String) : t.getColumn n = t.colMap n := by
  unfold table.getColumn
  cases t.colMap n <;> rfl

theorem unseenNames_cons_seen {t : table} {n : String} {p : Nat} (l : List String)
    (h : t.colMap n = some p) : unseenNames t (n :: l) = unseenNames t l := by
  simp only [unseenNames, firstOccurrences, List.filter_cons, getColumn_eq_colMap, h,
    Option.isNone_some, Bool.false_eq_true, if_false, List.filter_filter]
  apply List.filter_congr
  intro x _
  by_cases hx : x = n
  · subst hx; simp [h]
  · simp [hx]

theorem unseenNames_cons_unseen {t : table} {n : String} (l : List String)
    (h : t.colMap n = none) :
    unseenNames t (n :: l) = n :: unseenNames (t.addColumn n).1 l := by
  simp only [unseenNames, firstOccurrences, List.filter_cons, getColumn_eq_colMap, h,
    Option.isNone_none, if_true, List.filter_filter]
  congr 1
  apply List.filter_congr
  intro x _
  simp only [table.addColumn, GoMap.set_apply]
  by_cases hx : x = n
  · subst hx; simp
  · simp [hx]

theorem addColumns_cons (n : String) (l : List String) (t : table) :
    addColumns (n :: l) t = addColumns l (t.getAddColumn n).1 := rfl

theorem addColumns_append (l1 l2 : List String) (t : table) :
    addColumns (l1 ++ l2) t = addColumns l2 (addColumns l1 t) := by
  unfold addColumns
  rw [List.foldl_append]

/-- What a sequence of `getAddColumn` calls does to a table: the unseen names are
appended in order of first occurrence as fresh column objects with consecutive
ordinals and no key, and nothing that was there before changes. -/
theorem addColumns_spec :
    ∀ (l : List String) (t : table),
      (addColumns l t).colSlice =
        t.colSlice ++ List.range' t.next (unseenNames t l).length ∧
      (addColumns l t).next = t.next + (unseenNames t l).length ∧
      (∀ p, p < t.next → (addColumns l t).heap p = t.heap p) ∧
      (∀ j n, (unseenNames t l)[j]? = some n →
        (addColumns l t).heap (t.next + j) = ⟨n, t.colSlice.length + j, none⟩ ∧
        (addColumns l t).colMap n = some (t.next + j)) ∧
      (∀ n p, t.colMap n = some p → (addColumns l t).colMap n = some p) ∧
      (addColumns l t).records = t.records ∧ (addColumns l t).name = t.name := by
  intro l
  induction l with
  | nil =>
    intro t
    refine ⟨by simp [addColumns, unseenNames, firstOccurrences],
      by simp [addColumns, unseenNames, firstOccurrences], fun _ _ => rfl, ?_, fun _ _ h => h,
      rfl, rfl⟩
    intro j n h
    simp [unseenNames, firstOccurrences] at h
  | cons n l ih =>
    intro t
    rw [addColumns_cons]
    cases hn : t.colMap n with
    | some p =>
      have hga : (t.getAddColumn n).1 = t := by simp [table.getAddColumn, hn]
      rw [hga, unseenNames_cons_seen l hn]
      exact ih t
    | none =>
      have hga : (t.getAddColumn n).1 = (t.addColumn n).1 := by simp [table.getAddColumn, hn]
      rw [hga, unseenNames_cons_unseen l hn]
      obtain ⟨h1, h2, h3, h4, h5, h6, h7⟩ := ih (t.addColumn n).1
      have hnext : (t.addColumn n).1.next = t.next + 1 := rfl
      have hslice : (t.addColumn n).1.colSlice = t.colSlice ++ [t.next] := rfl
      have hheap : (t.addColumn n).1.heap t.next = ⟨n, t.colSlice.length, none⟩ := by
        simp [table.addColumn]
      have hmap : (t.addColumn n).1.colMap n = some t.next := by
        simp [table.addColumn, GoMap.set_apply]
      refine ⟨?_, ?_, ?_, ?_, ?_, h6, h7⟩
      · rw [h1, hnext, hslice, List.length_cons, List.range'_succ, List.append_assoc]
        rfl
      · rw [h2, hnext, List.length_cons]
        omega
      · intro p hp
        rw [h3 p (by rw [hnext]; omega)]
        simp only [table.addColumn]
        exact Function.update_noteq (by omega) _ _
      · intro j x hj
        cases j with
        | zero =>
          simp only [List.getElem?_cons_zero, Option.some.injEq] at hj
          subst hj
          refine ⟨?_, ?_⟩
          · simp only [Nat.add_zero]
            rw [h3 t.next (by rw [hnext]; omega), hheap]
          · exact h5 _ _ hmap
        | succ j =>
          rw [List.getElem?_cons_succ] at hj
          obtain ⟨ha, hb⟩ := h4 j x hj
          rw [hnext, hslice] at ha
          rw [hnext] at hb
          have e1 : t.next + (j + 1) = t.next + 1 + j := by omega
          have e2 : t.colSlice.length + (j + 1) = (t.colSlice ++ [t.next]).length + j := by
            simp only [List.length_append, List.length_singleton]
            omega
          rw [e1, e2]
          exact ⟨ha, hb⟩
      · intro x p hx
        apply h5
        simp only [table.addColumn, GoMap.set_apply]
        by_cases hxn : x = n
        · rw [hxn, hn] at hx
          cases hx
        · rw [if_neg hxn]
          exact hx

theorem registry_getAddColumn {t : table} (n : String) (h : Registry t) :
    Registry (t.getAddColumn n).1 := by
  cases hn : t.colMap n with
  | some p =>
    have hga : (t.getAddColumn n).1 = t := by simp [table.getAddColumn, hn]
    rw [hga]
    exact h
  | none =>
    have hga : (t.getAddColumn n).1 = (t.addColumn n).1 := by simp [table.getAddColumn, hn]
    rw [hga]
    exact registry_addColumn h hn

theorem registry_addColumns (l : List String) :
    ∀ (t : table), Registry t → Registry (addColumns l t) := by
  induction l with
  | nil => intro t h; exact h
  | cons n l ih =>
    intro t h
    rw [addColumns_cons]
    exact ih _ (registry_getAddColumn n h)

theorem unseenNames_newTable (nm : String) (names : List String) :
    firstOccurrences ("id" :: names) = "id" :: unseenNames (newTable nm) names := by
  simp only [firstOccurrences, unseenNames]
  congr 1
  apply List.filter_congr
  intro x _
  simp only [getColumn_eq_colMap, newTable, table.addColumn, GoMap.set_apply, GoMap.empty]
  by_cases hx : x = "id"
  · simp [hx]
  · simp [hx]

/-- C14. Ordinal stability: after `getAddColumn` has been applied to a list of
names in order on a new table, the column count is the number of distinct names
in "id" followed by the list; the name at index i of the de-duplicated sequence
(first occurrences) has a column of ordinal i, so every name of the list has its
column at the index of its first occurrence; and the column and ordinal of a name
are the same after any further `getAddColumn` calls. -/
theorem getAddColumn_ordinals_stable (nm : String) (names : List String) :
    (addColumns names (newTable nm)).getColumnCount = ("id" :: names).toFinset.card ∧
    (∀ i n, (firstOccurrences ("id" :: names))[i]? = some n →
      ∃ p, (addColumns names (newTable nm)).getColumn n = some p ∧
        ((addColumns names (newTable nm)).heap p).name = n ∧
        ((addColumns names (newTable nm)).heap p).ordinal = i) ∧
    (∀ n, n ∈ "id" :: names →
      ∃ p, (addColumns names (newTable nm)).getColumn n = some p ∧
        ((addColumns names (newTable nm)).heap p).ordinal =
          (firstOccurrences ("id" :: names)).indexOf n) ∧
    (∀ more n p, (addColumns names (newTable nm)).getColumn n = some p →
      (addColumns more (addColumns names (newTable nm))).getColumn n = some p ∧
      ((addColumns more (addColumns names (newTable nm))).heap p).ordinal =
        ((addColumns names (newTable nm)).heap p).ordinal) := by
  obtain ⟨h1, h2, h3, h4, h5, _, _⟩ := addColumns_spec names (newTable nm)
  have hfo := unseenNames_newTable nm names
  have hnext : (newTable nm).next = 1 := rfl
  have hslice : (newTable nm).colSlice = [0] := rfl
  have hidx : ∀ i n, (firstOccurrences ("id" :: names))[i]? = some n →
      ∃ p, (addColumns names (newTable nm)).getColumn n = some p ∧
        ((addColumns names (newTable nm)).heap p).name = n ∧
        ((addColumns names (newTable nm)).heap p).ordinal = i := by
    intro i n hi
    rw [hfo] at hi
    cases i with
    | zero =>
      simp only [List.getElem?_cons_zero, Option.some.injEq] at hi
      subst hi
      refine ⟨0, ?_, ?_, ?_⟩
      · rw [getColumn_eq_colMap]
        exact h5 "id" 0 (by simp [newTable, table.addColumn, GoMap.set_apply])
      · rw [h3 0 (by rw [hnext]; omega)]
        simp [newTable, table.addColumn]
      · rw [h3 0 (by rw [hnext]; omega)]
        simp [newTable, table.addColumn]
    | succ j =>
      rw [List.getElem?_cons_succ] at hi
      obtain ⟨ha, hb⟩ := h4 j n hi
      refine ⟨(newTable nm).next + j, ?_, ?_, ?_⟩
      · rw [getColumn_eq_colMap]; exact hb
      · rw [ha]
      · rw [ha, hslice]
        simp only [List.length_singleton]
        omega
  refine ⟨?_, hidx, ?_, ?_⟩
  · unfold table.getColumnCount
    rw [h1, ← length_firstOccurrences, hfo]
    simp only [List.length_append, List.length_range', hslice, List.length_singleton,
      List.length_cons, List.length_nil]
    omega
  · intro n hn
    have hmem : n ∈ firstOccurrences ("id" :: names) := (mem_firstOccurrences _ _).2 hn
    obtain ⟨p, hp1, _, hp3⟩ := hidx _ n (List.getElem?_indexOf hmem)
    exact ⟨p, hp1, hp3⟩
  · intro more n p hp
    rw [getColumn_eq_colMap] at hp
    have hreg := registry_addColumns names (newTable nm) (registry_newTable nm)
    obtain ⟨_, _, g3, _, g5, _, _⟩ := addColumns_spec more (addColumns names (newTable nm))
    refine ⟨?_, ?_⟩
    · rw [getColumn_eq_colMap]; exact g5 n p hp
    · rw [g3 p (hreg.1 n p hp).2.1]

/-- C15. On a table whose name lookup and column sequence are in sync: for a
name that is present `getAddColumn` returns the existing column with flag false
and the table unchanged; for an absent name it returns a new column with flag
true, named as asked, with ordinal equal to the previous column count and no
key, the column count grows by one, `getColumn` afterwards returns that column,
and every other column is unchanged. `getColumn` returns nil for an unknown name
(it only reads the lookup, so it cannot create a column). -/
theorem getAddColumn_contract (t : table) (name : String) (hsync : Registry t) :
    (∀ p, t.getColumn name = some p → t.getAddColumn name = (t, p, false)) ∧
    (t.getColumn name = none →
      (t.getAddColumn name).2.2 = true ∧
      (t.getAddColumn name).1.heap (t.getAddColumn name).2.1 =
        ⟨name, t.getColumnCount, none⟩ ∧
      (t.getAddColumn name).1.getColumnCount = t.getColumnCount + 1 ∧
      (t.getAddColumn name).1.colSlice = t.colSlice ++ [(t.getAddColumn name).2.1] ∧
      (t.getAddColumn name).1.getColumn name = some (t.getAddColumn name).2.1 ∧
      (∀ n q, t.getColumn n = some q →
        (t.getAddColumn name).1.getColumn n = some q ∧
        (t.getAddColumn name).1.heap q = t.heap q) ∧
      (∀ q, q ∈ t.colSlice → (t.getAddColumn name).1.heap q = t.heap q) ∧
      (t.getAddColumn name).1.records = t.records) ∧
    (t.colMap name = none → t.getColumn name = none) := by
  refine ⟨fun p hp => ?_, fun hnone => ?_, fun h => by rw [getColumn_eq_colMap]; exact h⟩
  · rw [getColumn_eq_colMap] at hp
    simp [table.getAddColumn, hp]
  · rw [getColumn_eq_colMap] at hnone
    have hga : t.getAddColumn name = ((t.addColumn name).1, (t.addColumn name).2, true) := by
      simp [table.getAddColumn, hnone]
    rw [hga]
    have hfresh : ∀ n q, t.colMap n = some q → q ≠ t.next := fun n q hq => by
      have := (hsync.1 n q hq).2.1
      omega
    refine ⟨rfl, by simp [table.addColumn, table.getColumnCount],
      by simp [table.addColumn, table.getColumnCount], rfl,
      by simp [getColumn_eq_colMap, table.addColumn, GoMap.set_apply], ?_, ?_, rfl⟩
    · intro n q hq
      rw [getColumn_eq_colMap] at hq ⊢
      have hne : n ≠ name := fun h => by rw [h, hnone] at hq; cases hq
      refine ⟨by simp [table.addColumn, GoMap.set_apply, hne, hq], ?_⟩
      simp only [table.addColumn]
      exact Function.update_noteq (hfresh n q hq) _ _
    · intro q hq
      obtain ⟨i, hi⟩ := List.mem_iff_getElem?.1 hq
      simp only [table.addColumn]
      exact Function.update_noteq (hfresh _ q (hsync.2.1 i q hi).2) _ _

theorem getAddColumn_contract_witness :
    Registry (newTable "stocks") ∧
    (∀ p, (newTable "stocks").getColumn "symbol" = some p →
      (newTable "stocks").getAddColumn "symbol" = (newTable "stocks", p, false)) ∧
    ((newTable "stocks").getColumn "symbol" = none →
      ((newTable "stocks").getAddColumn "symbol").2.2 = true ∧
      ((newTable "stocks").getAddColumn "symbol").1.heap
          ((newTable "stocks").getAddColumn "symbol").2.1 =
        ⟨"symbol", (newTable "stocks").getColumnCount, none⟩ ∧
      ((newTable "stocks").getAddColumn "symbol").1.getColumnCount =
        (newTable "stocks").getColumnCount + 1 ∧
      ((newTable "stocks").getAddColumn "symbol").1.colSlice =
        (newTable "stocks").colSlice ++ [((newTable "stocks").getAddColumn "symbol").2.1] ∧
      ((newTable "stocks").getAddColumn "symbol").1.getColumn "symbol" =
        some ((newTable "stocks").getAddColumn "symbol").2.1 ∧
      (∀ n q, (newTable "stocks").getColumn n = some q →
        ((newTable "stocks").getAddColumn "symbol").1.getColumn n = some q ∧
        ((newTable "stocks").getAddColumn "symbol").1.heap q = (newTable "stocks").heap q) ∧
      (∀ q, q ∈ (newTable "stocks").colSlice →
        ((newTable "stocks").getAddColumn "symbol").1.heap q = (newTable "stocks").heap q) ∧
      ((newTable "stocks").getAddColumn "symbol").1.records = (newTable "stocks").records) ∧
    ((newTable "stocks").colMap "symbol" = none →
      (newTable "stocks").getColumn "symbol" = none) :=
  ⟨registry_newTable "stocks",
    getAddColumn_contract (newTable "stocks") "symbol" (registry_newTable "stocks")⟩

/-! ## Columns created by an insert -/

theorem sameColumns_refl (a : table) : SameColumns a a :=
  ⟨rfl, rfl, rfl, fun _ => ⟨rfl, rfl, rfl⟩⟩

theorem sameColumns_trans {a b c : table} (h1 : SameColumns a b) (h2 : SameColumns b c) :
    SameColumns a c :=
  ⟨h1.1.trans h2.1, h1.2.1.trans h2.2.1, h1.2.2.1.trans h2.2.2.1, fun p =>
    ⟨(h1.2.2.2 p).1.trans (h2.2.2.2 p).1, (h1.2.2.2 p).2.1.trans (h2.2.2.2 p).2.1,
      (h1.2.2.2 p).2.2.trans (h2.2.2.2 p).2.2⟩⟩

theorem sameColumns_getAddColumn {a b : table} (n : String) (h : SameColumns a b) :
    SameColumns (a.getAddColumn n).1 (b.getAddColumn n).1 := by
  obtain ⟨h1, h2, h3, h4⟩ := h
  cases hn : b.colMap n with
  | some p =>
    have ha : a.colMap n = some p := by rw [h2]; exact hn
    simp only [table.getAddColumn, hn, ha]
    exact ⟨h1, h2, h3, h4⟩
  | none =>
    have ha : a.colMap n = none := by rw [h2]; exact hn
    simp only [table.getAddColumn, hn, ha, table.addColumn]
    refine ⟨by rw [h1, h3], by rw [h2, h3], by rw [h3], fun p => ?_⟩
    rw [h3, h1]
    by_cases hp : p = b.next
    · subst hp
      simp
    · simp only [Function.update_noteq hp]
      exact h4 p

theorem sameColumns_addColumns (l : List String) :
    ∀ (a b : table), SameColumns a b → SameColumns (addColumns l a) (addColumns l b) := by
  induction l with
  | nil => intro a b h; exact h
  | cons n l ih =>
    intro a b h
    rw [addColumns_cons, addColumns_cons]
    exact ih _ _ (sameColumns_getAddColumn n h)

theorem sameColumns_setKey {s : table} {p : Nat} {m : GoMap Nat} (key : GoMap Nat)
    (h : (s.heap p).key = some m) : SameColumns (s.setKey p (some key)) s := by
  refine ⟨rfl, rfl, rfl, fun q => ?_⟩
  by_cases hq : q = p
  · subst hq
    rw [setKey_heap_same]
    simp [column.hasKey, h]
  · rw [setKey_heap_ne _ _ hq]
    exact ⟨rfl, rfl, rfl⟩

/-- A successful insert leaves the column registry that `getAddColumn`, applied
to the request's column names in order, would leave. -/
theorem sqlInsert_sameColumns {t t' : table} {req : sqlInsertRequest} {id : String}
    (h : t.sqlInsert req = some (response.sqlInsertResponse id, t')) :
    SameColumns t' (addColumns (req.colVals.map columnValue.col) t) := by
  have hc := sqlInsertLoop_cases
    (fun rest s _ => SameColumns (addColumns (rest.map columnValue.col) s)
      (addColumns (req.colVals.map columnValue.col) t))
    t.records.elems.length t.colSlice.length req.colVals
    (fun cv rest s rec hP hn => by
      have hga : (s.getAddColumn cv.col).1 = (s.addColumn cv.col).1 := by
        simp [table.getAddColumn, hn]
      dsimp only at hP ⊢
      rw [List.map_cons, addColumns_cons, hga] at hP
      exact hP)
    (fun cv rest s rec p hP hp _ => by
      have hga : (s.getAddColumn cv.col).1 = s := by simp [table.getAddColumn, hp]
      dsimp only at hP ⊢
      rw [List.map_cons, addColumns_cons, hga] at hP
      exact hP)
    (fun cv rest s rec p m hP hp hk _ => by
      have hga : (s.getAddColumn cv.col).1 = s := by simp [table.getAddColumn, hp]
      dsimp only at hP ⊢
      rw [List.map_cons, addColumns_cons, hga] at hP
      exact sameColumns_trans (sameColumns_addColumns _ _ _ (sameColumns_setKey _ hk)) hP)
    req.colVals t t.newRecord.1 [] _ t' (sameColumns_refl _) h
  rcases hc with ⟨e, he⟩ | ⟨tf, rf, hP, _, rfl⟩
  · cases he
  · exact hP

/-- C17. After an `sqlInsert` that returns a success response, the column
sequence is the previous one followed by one fresh column object for each
previously-unseen column name of the request, in order of first occurrence; the
j-th of them carries that name, the ordinal (previous column count + j) and no
key index, and is what the name lookup returns for the name; every column object
that existed before keeps its name, its ordinal and whether it has a key index,
and every name known before resolves to the same column. -/
theorem sqlInsert_success_columns (t : table) (req : sqlInsertRequest) (id : String)
    (t' : table) (h : t.sqlInsert req = some (response.sqlInsertResponse id, t')) :
    t'.colSlice = t.colSlice ++
      List.range' t.next (unseenNames t (req.colVals.map columnValue.col)).length ∧
    t'.getColumnCount =
      t.getColumnCount + (unseenNames t (req.colVals.map columnValue.col)).length ∧
    (∀ j n, (unseenNames t (req.colVals.map columnValue.col))[j]? = some n →
      (t'.heap (t.next + j)).name = n ∧
      (t'.heap (t.next + j)).ordinal = t.getColumnCount + j ∧
      (t'.heap (t.next + j)).hasKey = false ∧
      t'.getColumn n = some (t.next + j)) ∧
    (∀ p, p < t.next →
      (t'.heap p).name = (t.heap p).name ∧ (t'.heap p).ordinal = (t.heap p).ordinal ∧
      (t'.heap p).hasKey = (t.heap p).hasKey) ∧
    (∀ n p, t.getColumn n = some p → t'.getColumn n = some p) := by
  obtain ⟨s1, s2, s3, s4⟩ := sqlInsert_sameColumns h
  obtain ⟨h1, _, h3, h4, h5, _, _⟩ := addColumns_spec (req.colVals.map columnValue.col) t
  refine ⟨by rw [s1, h1], ?_, ?_, ?_, ?_⟩
  · unfold table.getColumnCount
    rw [s1, h1]
    simp
  · intro j n hj
    obtain ⟨ha, hb⟩ := h4 j n hj
    obtain ⟨e1, e2, e3⟩ := s4 (t.next + j)
    rw [e1, e2, e3, ha, getColumn_eq_colMap, s2]
    exact ⟨rfl, rfl, rfl, hb⟩
  · intro p hp
    obtain ⟨e1, e2, e3⟩ := s4 p
    rw [e1, e2, e3, h3 p hp]
    exact ⟨rfl, rfl, rfl⟩
  · intro n p hn
    rw [getColumn_eq_colMap] at hn ⊢
    rw [s2]
    exact h5 n p hn

theorem sqlInsert_success_columns_witness :
    stocksTable.sqlInsert volumeReq =
      some (response.sqlInsertResponse "1", stocksAfterVolume) ∧
    stocksTable.getColumnCount = 3 ∧ stocksTable.next = 3 ∧
    unseenNames stocksTable (volumeReq.colVals.map columnValue.col) = ["volume"] ∧
    stocksAfterVolume.colSlice = stocksTable.colSlice ++
      List.range' stocksTable.next
        (unseenNames stocksTable (volumeReq.colVals.map columnValue.col)).length ∧
    stocksAfterVolume.getColumnCount = stocksTable.getColumnCount +
      (unseenNames stocksTable (volumeReq.colVals.map columnValue.col)).length ∧
    (∀ j n, (unseenNames stocksTable (volumeReq.colVals.map columnValue.col))[j]? = some n →
      (stocksAfterVolume.heap (stocksTable.next + j)).name = n ∧
      (stocksAfterVolume.heap (stocksTable.next + j)).ordinal = stocksTable.getColumnCount + j ∧
      (stocksAfterVolume.heap (stocksTable.next + j)).hasKey = false ∧
      stocksAfterVolume.getColumn n = some (stocksTable.next + j)) ∧
    (∀ p, p < stocksTable.next →
      (stocksAfterVolume.heap p).name = (stocksTable.heap p).name ∧
      (stocksAfterVolume.heap p).ordinal = (stocksTable.heap p).ordinal ∧
      (stocksAfterVolume.heap p).hasKey = (stocksTable.heap p).hasKey) ∧
    (∀ n p, stocksTable.getColumn n = some p → stocksAfterVolume.getColumn n = some p) :=
  ⟨rfl, rfl, rfl, by decide,
    sqlInsert_success_columns stocksTable volumeReq "1" stocksAfterVolume rfl⟩

/-! ## Record positions -/

theorem sqlInsert_success_records {t t' : table} {req : sqlInsertRequest} {id : String}
    (h : t.sqlInsert req = some (response.sqlInsertResponse id, t')) :
    ∃ rf, t'.records.elems = t.records.elems ++ [rf] := by
  have hc := sqlInsertLoop_cases (fun _ s _ => s.records = t.records)
    t.records.elems.length t.colSlice.length req.colVals
    (fun cv rest s rec hP _ => hP) (fun cv rest s rec p hP _ _ => hP)
    (fun cv rest s rec p m hP _ _ _ => hP)
    req.colVals t t.newRecord.1 [] _ t' rfl h
  rcases hc with ⟨e, he⟩ | ⟨tf, rf, hP, _, rfl⟩
  · cases he
  · refine ⟨rf, ?_⟩
    show (addRecordToSlice tf.records rf).elems = _
    rw [addRecordToSlice_elems, hP]

theorem step_record_count {t : table} {op : Op} {r : response × table}
    (hb : KeysBounded t) (h : step t op = some r) :
    r.2.records.elems.length = t.records.elems.length + insertSuccess r.1 := by
  obtain ⟨r1, t'⟩ := r
  cases op with
  | key req =>
    rcases sqlKey_cases h with ⟨⟨e, rfl⟩, rfl⟩ | ⟨p, m, _, _, _, rfl, rfl⟩
    · rfl
    · rfl
  | insert req =>
    cases r1 with
    | sqlInsertResponse id =>
      obtain ⟨rf, hrf⟩ := sqlInsert_success_records h
      simp only [hrf, List.length_append, List.length_singleton, insertSuccess]
    | errorResponse e =>
      have := sqlInsert_error_eq hb h
      subst this
      rfl
    | okResponse =>
      rcases sqlInsertLoop_cases (fun _ _ _ => True) _ _ _ (fun _ _ _ _ _ _ => trivial)
        (fun _ _ _ _ _ _ _ _ => trivial) (fun _ _ _ _ _ _ _ _ _ _ => trivial)
        req.colVals t t.newRecord.1 [] _ t' trivial h with ⟨e, he⟩ | ⟨_, _, _, he, _⟩ <;>
        cases he
    | sqlSelectResponse c rs =>
      rcases sqlInsertLoop_cases (fun _ _ _ => True) _ _ _ (fun _ _ _ _ _ _ => trivial)
        (fun _ _ _ _ _ _ _ _ => trivial) (fun _ _ _ _ _ _ _ _ _ _ => trivial)
        req.colVals t t.newRecord.1 [] _ t' trivial h with ⟨e, he⟩ | ⟨_, _, _, he, _⟩ <;>
        cases he
  | select req =>
    have h' : t.sqlSelect req = some (r1, t') := h
    unfold table.sqlSelect at h'
    split_ifs at h' <;> simp only [Option.some.injEq, Prod.mk.injEq] at h' <;>
      obtain ⟨rfl, rfl⟩ := h' <;> rfl

theorem runOps_record_count :
    ∀ (ops : List Op) (t t' : table), KeysBounded t → Registry t →
      runOps ops t = some t' →
      t'.records.elems.length = t.records.elems.length + successfulInserts ops t := by
  intro ops
  induction ops with
  | nil =>
    intro t t' _ _ h
    simp only [runOps, Option.some.injEq] at h
    subst h
    rfl
  | cons op ops ih =>
    intro t t' hb hreg h
    unfold runOps at h
    unfold successfulInserts
    cases hs : step t op with
    | none => simp [hs] at h
    | some r =>
      simp only [hs] at h ⊢
      obtain ⟨hb', hreg'⟩ := @step_inv t r.2 op r.1 hb hreg hs
      rw [ih _ _ hb' hreg' h, step_record_count hb hs]
      omega

/-- C11. Identifier monotonicity: an `sqlInsert` that returns a success response
on a table with k records leaves exactly k+1 records, keeps the records at
positions 0..k-1 as they were, and puts the new record at position k, the id
`newRecord` provisioned it with. When the table was reached from a new table by
any calls that returned, k is the number of successful inserts among them, so
the n-th successful insert places its record at position n whatever failed
inserts came in between. -/
theorem sqlInsert_success_appends (t : table) (req : sqlInsertRequest) (id : String)
    (t' : table) (h : t.sqlInsert req = some (response.sqlInsertResponse id, t')) :
    t'.getRecordCount = t.getRecordCount + 1 ∧
    (∀ i, i < t.getRecordCount → t'.records.elems[i]? = t.records.elems[i]?) ∧
    (∃ rf, t'.records.elems = t.records.elems ++ [rf] ∧
      t'.records.elems[t.newRecord.2]? = some rf) ∧
    t.newRecord.2 = t.getRecordCount ∧
    (∀ nm ops, runOps ops (newTable nm) = some t →
      t.getRecordCount = successfulInserts ops (newTable nm)) := by
  obtain ⟨rf, hrf⟩ := sqlInsert_success_records h
  refine ⟨?_, ?_, ⟨rf, hrf, ?_⟩, rfl, ?_⟩
  · unfold table.getRecordCount
    rw [hrf]
    simp
  · intro i hi
    rw [hrf]
    exact List.getElem?_append_left hi
  · rw [hrf]
    show (t.records.elems ++ [rf])[t.records.elems.length]? = some rf
    simp
  · intro nm ops hreach
    have := runOps_record_count ops _ t (keysBounded_newTable nm) (registry_newTable nm) hreach
    unfold table.getRecordCount
    rw [this]
    simp [newTable, table.addColumn]

theorem sqlInsert_success_appends_witness :
    runOps interleavedOps (newTable "stocks") = some interleavedTable ∧
    successfulInserts interleavedOps (newTable "stocks") = 1 ∧
    interleavedTable.sqlInsert ⟨[⟨"symbol", "XYZ"⟩]⟩ =
      some (response.sqlInsertResponse "1", interleavedAfter) ∧
    interleavedAfter.records.elems = [⟨["0", "ABC"]⟩, ⟨["1", "XYZ"]⟩] ∧
    interleavedAfter.getRecordCount = interleavedTable.getRecordCount + 1 ∧
    (∀ i, i < interleavedTable.getRecordCount →
      interleavedAfter.records.elems[i]? = interleavedTable.records.elems[i]?) ∧
    (∃ rf, interleavedAfter.records.elems = interleavedTable.records.elems ++ [rf] ∧
      interleavedAfter.records.elems[interleavedTable.newRecord.2]? = some rf) ∧
    interleavedTable.newRecord.2 = interleavedTable.getRecordCount ∧
    (∀ nm ops, runOps ops (newTable nm) = some interleavedTable →
      interleavedTable.getRecordCount = successfulInserts ops (newTable nm)) :=
  ⟨rfl, rfl, rfl, rfl,
    sqlInsert_success_appends interleavedTable ⟨[⟨"symbol", "XYZ"⟩]⟩ "1" interleavedAfter rfl⟩

/-! ## Registry consistency over all calls -/

theorem keysBounded_getAddColumn {t : table} (n : String) (h : KeysBounded t) :
    KeysBounded (t.getAddColumn n).1 := by
  cases hn : t.colMap n with
  | some p =>
    have hga : (t.getAddColumn n).1 = t := by simp [table.getAddColumn, hn]
    rw [hga]
    exact h
  | none =>
    have hga : (t.getAddColumn n).1 = (t.addColumn n).1 := by simp [table.getAddColumn, hn]
    rw [hga]
    intro p m k i hm hk
    obtain ⟨_, heq⟩ := addColumn_heap_of_key hm
    rw [heq] at hm
    exact h p m k i hm hk

theorem runCalls_inv :
    ∀ (calls : List Call) (t t' : table), KeysBounded t → Registry t →
      runCalls calls t = some t' → KeysBounded t' ∧ Registry t' := by
  intro calls
  induction calls with
  | nil =>
    intro t t' hb hreg h
    simp only [runCalls, Option.some.injEq] at h
    subst h
    exact ⟨hb, hreg⟩
  | cons c cs ih =>
    intro t t' hb hreg h
    unfold runCalls at h
    cases hs : stepCall t c with
    | none => simp [hs] at h
    | some t1 =>
      simp only [hs] at h
      have hstep : KeysBounded t1 ∧ Registry t1 := by
        cases c with
        | op o =>
          simp only [stepCall, Option.map_eq_some'] at hs
          obtain ⟨r, hr, rfl⟩ := hs
          exact @step_inv t r.2 o r.1 hb hreg hr
        | getAddColumn n =>
          simp only [stepCall, Option.some.injEq] at hs
          subst hs
          exact ⟨keysBounded_getAddColumn n hb, registry_getAddColumn n hreg⟩
      exact ih _ _ hstep.1 hstep.2 h

theorem registryConsistent_of_registry {t : table} (h : Registry t) : RegistryConsistent t := by
  obtain ⟨ha, hb, _⟩ := h
  refine ⟨fun i p hi => (hb i p hi).1, ?_, fun n p => ⟨fun hn => ?_, fun hp => ?_⟩⟩
  · rw [List.nodup_iff_getElem?_ne_getElem?]
    intro i j hij hj heq
    simp only [List.length_map] at hj
    have hi : i < t.colSlice.length := by omega
    simp only [List.getElem?_map, List.getElem?_eq_getElem hi, List.getElem?_eq_getElem hj,
      Option.map_some', Option.some.injEq] at heq
    have h1 := hb i _ (List.getElem?_eq_getElem hi)
    have h2 := hb j _ (List.getElem?_eq_getElem hj)
    rw [heq, h2.2] at h1
    have h3 : t.colSlice[j] = t.colSlice[i] := Option.some.inj h1.2
    have h4 := h2.1
    rw [h3, h1.1] at h4
    omega
  · obtain ⟨h1, _, h3⟩ := ha n p hn
    exact ⟨List.getElem?_mem h3, h1⟩
  · obtain ⟨hmem, hname⟩ := hp
    obtain ⟨i, hi⟩ := List.mem_iff_getElem?.1 hmem
    rw [← hname]
    exact (hb i p hi).2

/-- C18. Column registry consistency is an invariant: in every table reachable
from `newTable` by `getAddColumn`, `sqlKey`, `sqlInsert` and `sqlSelect` calls
that each returned, the column at position i of the column sequence has ordinal
i, the names in the sequence are pairwise distinct, and the name lookup holds
exactly the columns of the sequence, each under its name. -/
theorem registry_consistent_invariant (nm : String) (calls : List Call) (t : table)
    (hreach : runCalls calls (newTable nm) = some t) : RegistryConsistent t :=
  registryConsistent_of_registry
    (runCalls_inv calls _ t (keysBounded_newTable nm) (registry_newTable nm) hreach).2

theorem registry_consistent_invariant_witness :
    runCalls mixedCalls (newTable "stocks") = some mixedTable ∧
    mixedTable.colSlice = [0, 1, 2] ∧
    mixedTable.colSlice.map (fun p => (mixedTable.heap p).name) = ["id", "symbol", "price"] ∧
    RegistryConsistent mixedTable :=
  ⟨rfl, rfl, rfl, registry_consistent_invariant "stocks" mixedCalls mixedTable rfl⟩

end pubsubsql
